import Mathlib

/-!
# EasyWebServer: request parsing, routing and the per-connection pipeline

A shallow embedding of `server_base.hpp` (`EasyWeb::ServerBase`).

* A `std::string` is a `List Char`; a C++ `char` is a `Char`.
* `std::unordered_map` is an association list used only through `count` and
  `operator[]`; `std::map` is an association list kept in increasing key order.
* `std::regex_match` on the user supplied route patterns is library code: the
  server is parametric in it, and a pattern is taken to be an expression that
  `std::regex` accepts.  The two regular expressions written in
  `parse_request` are embedded as matchers.
* A route handler is the function from the request it is given to the bytes it
  writes; it is taken to leave the request as it is.
* `std::stoull` and `std::stof` are embedded with the exceptions they throw;
  `pop_back` on an empty string is undefined behaviour and is kept apart.
* The asynchronous operations of boost::asio are data (`Op`); each completion
  handler (a lambda in the source) is a function from the completion's
  arguments to an `Effect`: the handler invoked, the operations issued, and
  the exception or undefined behaviour raised, when there is one.
-/

namespace EasyWeb

set_option maxRecDepth 100000

/-- A `std::string`. -/
abbrev Str := List Char

/-! ## Data model -/

/-- The `struct Request`. `content` is `none` for a null `shared_ptr`, else the
bytes the stream yields; `path_match` is the `std::smatch` as its sub-matches. -/
structure Request where
  method : Str
  path : Str
  http_version : Str
  content : Option Str
  header : List (Str × Str)
  path_match : List Str
deriving DecidableEq

/-- A default-constructed `Request`. -/
def Request.empty : Request := ⟨[], [], [], none, [], []⟩

/-- A `std::function<void(std::ostream&, Request&)>`: the bytes the handler
writes to the response stream, for the request it is given. -/
abbrev Handler := Request → Str

/-- The inner `std::unordered_map<std::string, std::function<...>>`. -/
abbrev method_map := List (Str × Handler)

/-- The `resource_type`: a `std::map` from pattern string to method map, as
the sequence of its entries in iteration order (increasing key). -/
abbrev resource_type := List (Str × method_map)

/-- The call `m.count(k) > 0` followed by `m[k]`, on an `unordered_map`. -/
def umap_find {V : Type} (k : Str) : List (Str × V) → Option V
  | [] => none
  | (k1, v) :: m => if k1 = k then some v else umap_find k m

/-- The assignment `m[k] = v` on an `unordered_map`. -/
def umap_assign {V : Type} (k : Str) (v : V) : List (Str × V) → List (Str × V)
  | [] => [(k, v)]
  | (k1, v1) :: m => if k1 = k then (k1, v) :: m else (k1, v1) :: umap_assign k v m

/-- The registration `table[pattern][method] = handler` on a `std::map`:
the entry of `pattern` is found, or created at its place in key order
(`std::less<std::string>`), and its method map is assigned. -/
def map_assign (pattern method : Str) (h : Handler) : resource_type → resource_type
  | [] => [(pattern, [(method, h)])]
  | (p, ms) :: t =>
    if pattern < p then (pattern, [(method, h)]) :: (p, ms) :: t
    else if pattern = p then (p, umap_assign method h ms) :: t
    else (p, ms) :: map_assign pattern method h t

/-- A table after a sequence of registrations `(pattern, method, handler)`,
made in list order on an empty `std::map`. -/
def registered (regs : List (Str × Str × Handler)) : resource_type :=
  regs.foldl (fun t r => map_assign r.1 r.2.1 r.2.2 t) []

/-- The members of `ServerBase` that routing uses. -/
structure ServerBase where
  resource : resource_type
  default_resource : resource_type
  all_resources : List (Str × method_map)

/-- A constructed server: the two tables as the caller filled them, and an
empty `all_resources` vector. -/
def ServerBase.mk0 (resource default_resource : resource_type) : ServerBase :=
  ⟨resource, default_resource, []⟩

/-- The two loops at the head of `ServerBase::start`: every entry of
`resource`, then every entry of `default_resource`, is pushed to the back of
`all_resources`. -/
def start (s : ServerBase) : ServerBase :=
  { s with all_resources := (s.all_resources ++ s.resource) ++ s.default_resource }

/-! ## Operations and effects -/

/-- An asynchronous operation issued on the connection's socket. -/
inductive Op where
  /-- The call `async_read_until(socket, fresh read_buffer, "\r\n\r\n")`. -/
  | async_read_until : Op
  /-- The call `async_read(socket, read_buffer, transfer_exactly(n))`, with
  the bytes `read_buffer` holds when it is issued and the captured request. -/
  | async_read (read_buffer : Str) (n : Nat) (request : Request) : Op
  /-- The call `async_write(socket, write_buffer)` with the captured request. -/
  | async_write (write_buffer : Str) (request : Request) : Op
deriving DecidableEq

/-- What leaves a completion handler other than by returning. -/
inductive Fault where
  /-- A `std::invalid_argument` thrown by `stof` or `stoull`. -/
  | invalid_argument : Fault
  /-- A `std::out_of_range` thrown by `stof` or `stoull`. -/
  | out_of_range : Fault
  /-- The call `pop_back()` on an empty `std::string`. -/
  | undefined_behaviour : Fault
deriving DecidableEq

/-- What one completion handler does: the route handler it invoked (with the
request passed), the operations it issued, in order, and the fault that
ended it, when there is one. -/
structure Effect where
  invoked : Option (Handler × Request)
  issued : List Op
  fault : Option Fault

/-- A handler that returns without doing anything. -/
def Effect.nothing : Effect := ⟨none, [], none⟩

/-- The function `ServerBase::respond`, up to the return: the scan of
`all_resources`; `regex_match s e` is `std::regex_match(s, sm, std::regex(e))`
and yields the sub-matches `sm` on success. -/
def respond (regex_match : Str → Str → Option (List Str)) :
    List (Str × method_map) → Request → Effect
  | [], _ => Effect.nothing
  | res :: rest, request =>
    match regex_match request.path res.1 with
    | some sm_res =>
      match umap_find request.method res.2 with
      | some h =>
        let request1 := { request with path_match := sm_res }
        ⟨some (h, request1), [Op.async_write (h request1) request1], none⟩
      | none => respond regex_match rest request
    | none => respond regex_match rest request

/-- An entry that `respond` stops at: its pattern matches the whole path and
its method map has the method. -/
def qualifies (regex_match : Str → Str → Option (List Str)) (request : Request)
    (res : Str × method_map) : Prop :=
  (regex_match request.path res.1).isSome = true ∧
    (umap_find request.method res.2).isSome = true

instance (regex_match : Str → Str → Option (List Str)) (request : Request)
    (res : Str × method_map) : Decidable (qualifies regex_match request res) := by
  unfold qualifies; infer_instance

/-! ## `parse_request` -/

/-- A `std::istream` over the read buffer: the bytes not yet extracted and
whether `good()` holds (neither `eofbit` nor `failbit` is set). -/
structure IStream where
  data : Str
  good : Bool
deriving DecidableEq

/-- The extraction of `std::getline`: the characters before the first
line feed, and the characters after it when there is one. -/
def read_line : Str → Str × Option Str
  | [] => ([], none)
  | c :: cs => if c = '\n' then ([], some cs) else ((read_line cs).1.cons c, (read_line cs).2)

/-- The call `getline(istream, line)`. On a stream that is not good the sentry
fails and `line` is left as it was; else `line` is replaced by the characters
up to the line feed, which is extracted and dropped; reaching the end of the
buffer first sets `eofbit`. -/
def getline (is : IStream) (line : Str) : IStream × Str :=
  if is.good then
    match read_line is.data with
    | (l, some rest) => (⟨rest, true⟩, l)
    | (l, none) => (⟨[], false⟩, l)
  else (is, line)

/-- The call `line.pop_back()`: undefined (`none`) on an empty string. -/
def pop_back (line : Str) : Option Str :=
  if line = [] then none else some line.dropLast

/-- The character class `[^c]`. -/
def not_char (c : Char) (x : Char) : Bool := decide (x ≠ c)

/-- The ECMAScript wildcard: any character but a line terminator. -/
def dot_char (x : Char) : Bool := decide (x ≠ '\n') && decide (x ≠ '\r')

/-- The match `std::regex_match(line, sub_match, e)` for the request-line
expression `^([^ ]*) ([^ ]*) HTTP/([^ ]*)$`, yielding the three captures.
Each group is greedy and is followed by a character outside its class (or by
the end), so the longest run is the only candidate. -/
def request_line_regex (line : Str) : Option (Str × Str × Str) :=
  match line.dropWhile (not_char ' ') with
  | ' ' :: r2 =>
    match r2.dropWhile (not_char ' ') with
    | ' ' :: 'H' :: 'T' :: 'T' :: 'P' :: '/' :: r4 =>
      if r4.dropWhile (not_char ' ') = [] then
        some (line.takeWhile (not_char ' '), r2.takeWhile (not_char ' '), r4)
      else none
    | _ => none
  | _ => none

/-- The optional space ` ?`, taken when there is one. -/
def skip_space : Str → Str
  | ' ' :: r => r
  | t => t

/-- The match for the header expression `^([^:]*): ?(.*)$`, yielding the two
captures. The optional space is greedy; giving it back cannot help, since the
wildcard run that follows must reach the end of the line either way. -/
def header_regex (line : Str) : Option (Str × Str) :=
  match line.dropWhile (not_char ':') with
  | ':' :: r2 =>
    if (skip_space r2).all dot_char then some (line.takeWhile (not_char ':'), skip_space r2)
    else none
  | _ => none

/-- The number of iterations the header loop can still make, plus one. -/
def stream_measure (is : IStream) (line : Str) : Nat :=
  if is.good then is.data.length + 1 else line.length + 1

/-- The `do ... while (matched)` loop of `parse_request`: `getline`,
`pop_back`, match, and on a match `request.header[sub_match[1]] = sub_match[2]`.
The result is `none` when `pop_back` meets an empty line. The recursion is on
`fuel`, which the bound keeps above the number of iterations left. -/
def header_loop : (fuel : Nat) → (is : IStream) → (line : Str) →
    stream_measure is line < fuel → List (Str × Str) → Option (List (Str × Str) × IStream)
  | 0, _, _, h, _ => absurd h (Nat.not_lt_zero _)
  | fuel + 1, is, line, h, header =>
    match hp : pop_back (getline is line).2 with
    | none => none
    | some line2 =>
      match header_regex line2 with
      | some (name, value) =>
        header_loop fuel (getline is line).1 line2 (by
          have hlen : line2.length + 1 = (getline is line).2.length := by
            unfold pop_back at hp
            split at hp
            · cases hp
            · rename_i hne
              cases hp
              rw [List.length_dropLast]
              have := List.length_pos.mpr hne
              omega
          have hread : ∀ d : Str, (read_line d).1.length ≤ d.length ∧
              ∀ r, (read_line d).2 = some r → r.length + (read_line d).1.length < d.length := by
            intro d
            induction d with
            | nil => simp [read_line]
            | cons c cs ih =>
              unfold read_line
              split
              · simp
              · refine ⟨by simpa using ih.1, fun r hr => ?_⟩
                have := ih.2 r hr
                simp only [List.length_cons] at *
                omega
          unfold stream_measure at h ⊢
          unfold getline at hlen ⊢
          cases hg : is.good with
          | false => simp only [hg, Bool.false_eq_true, if_false] at h hlen ⊢; omega
          | true =>
            simp only [hg, if_true] at h hlen ⊢
            have hr := hread is.data
            rcases hrl : read_line is.data with ⟨l, _ | rest⟩
            · rw [hrl] at hlen hr
              simp only [Bool.false_eq_true, if_false] at hlen ⊢
              have := hr.1
              simp only at this
              omega
            · rw [hrl] at hlen hr
              simp only [if_true] at hlen ⊢
              have := hr.2 rest rfl
              simp only at this
              omega)
          (umap_assign name value header)
      | none => some (header, (getline is line).1)

/-- The function `ServerBase::parse_request`, with the stream it leaves
behind; `none` is the undefined behaviour of `pop_back` on an empty line.
The trace `std::cout << line` is left out. -/
def parse_request (istream : IStream) : Option (Request × IStream) :=
  match pop_back (getline istream []).2 with
  | none => none
  | some line =>
    match request_line_regex line with
    | some (method, path, http_version) =>
      match header_loop (stream_measure (getline istream []).1 line + 1)
          (getline istream []).1 line (Nat.lt_succ_self _) [] with
      | some (header, is2) => some (⟨method, path, http_version, none, header, []⟩, is2)
      | none => none
    | none => some (Request.empty, (getline istream []).1)

/-! ## The numeric conversions of the standard library -/

/-- The C locale `isspace`. -/
def isspace (c : Char) : Bool := decide (c = ' ') || (decide (9 ≤ c.toNat) && decide (c.toNat ≤ 13))

/-- The value of a decimal digit. -/
def dec_val (c : Char) : Option Nat :=
  if 48 ≤ c.toNat ∧ c.toNat ≤ 57 then some (c.toNat - 48) else none

/-- The value of a hexadecimal digit. -/
def hex_val (c : Char) : Option Nat :=
  if 48 ≤ c.toNat ∧ c.toNat ≤ 57 then some (c.toNat - 48)
  else if 97 ≤ c.toNat ∧ c.toNat ≤ 102 then some (c.toNat - 87)
  else if 65 ≤ c.toNat ∧ c.toNat ≤ 70 then some (c.toNat - 55)
  else none

/-- The longest run of digits at the head of a string, as digit values, and
what follows it. -/
def take_digits (val : Char → Option Nat) : Str → List Nat × Str
  | [] => ([], [])
  | c :: cs =>
    match val c with
    | some d => ((take_digits val cs).1.cons d, (take_digits val cs).2)
    | none => ([], c :: cs)

/-- The number a digit sequence denotes in a base. -/
def digits_val (base : Nat) (ds : List Nat) : Nat := ds.foldl (fun a d => base * a + d) 0

/-- An optional sign: whether it is a minus, and what follows. -/
def take_sign : Str → Bool × Str
  | '-' :: r => (true, r)
  | '+' :: r => (false, r)
  | s => (false, s)

/-- The function `std::stoull(str)` (base 10), a wrapper of `strtoull`: white
space, an optional sign, a non-empty run of decimal digits. No digit is
`invalid_argument`, a magnitude above `ULLONG_MAX` is `out_of_range`, and a
minus sign negates in `unsigned long long`. -/
def stoull (str : Str) : Except Fault Nat :=
  let s := take_sign (str.dropWhile isspace)
  let ds := (take_digits dec_val s.2).1
  if ds = [] then Except.error Fault.invalid_argument
  else if 2 ^ 64 ≤ digits_val 10 ds then Except.error Fault.out_of_range
  else Except.ok (if s.1 then (2 ^ 64 - digits_val 10 ds) % 2 ^ 64 else digits_val 10 ds)

/-- The value of a `float`: a finite value is `± m * 2 ^ e * 2 ^ (-149)`, where
`2 ^ (-149)` is the least positive `float`. -/
inductive FloatVal where
  | finite (neg : Bool) (m : Nat) (e : Nat) : FloatVal
  | inf (neg : Bool) : FloatVal
  | nan : FloatVal
deriving DecidableEq

/-- A significand `digits [. digits]` with at least one digit: all its
digits, the number of those after the point, and what follows. -/
def significand (val : Char → Option Nat) (s : Str) : Option (List Nat × Nat × Str) :=
  match (take_digits val s).2 with
  | '.' :: r2 =>
    if (take_digits val s).1 = [] ∧ (take_digits val r2).1 = [] then none
    else some ((take_digits val s).1 ++ (take_digits val r2).1, (take_digits val r2).1.length,
      (take_digits val r2).2)
  | r1 => if (take_digits val s).1 = [] then none else some ((take_digits val s).1, 0, r1)

/-- An exponent part `marker [sign] digits`, taken only when it has a digit:
whether it is negative, and its magnitude (zero when there is no exponent). -/
def exponent_part (lower upper : Char) : Str → Bool × Nat
  | [] => (false, 0)
  | c :: r =>
    if c = lower ∨ c = upper then
      if (take_digits dec_val (take_sign r).2).1 = [] then (false, 0)
      else ((take_sign r).1, digits_val 10 (take_digits dec_val (take_sign r).2).1)
    else (false, 0)

/-- The exact value `num / den` of a number with digits `ds` in `base`, `frac`
of them after the point (each worth `unit` in the exponent's base `ebase`),
and exponent `ex`. -/
def exact_value (base ebase unit : Nat) (ds : List Nat) (frac : Nat) (ex : Bool × Nat) : Nat × Nat :=
  if ex.1 then (digits_val base ds, ebase ^ (unit * frac + ex.2))
  else (digits_val base ds * ebase ^ ex.2, ebase ^ (unit * frac))

/-- The subject sequence of `strtof` after white space and sign, when it is a
number: hexadecimal (`0x`, hexadecimal significand, optional `p` exponent) if
that form is present, else decimal (significand, optional `e` exponent). -/
def float_number (s : Str) : Option (Nat × Nat) :=
  let dec := (significand dec_val s).map
    (fun r => exact_value 10 10 1 r.1 r.2.1 (exponent_part 'e' 'E' r.2.2))
  match s with
  | '0' :: x :: r =>
    if x = 'x' ∨ x = 'X' then
      match significand hex_val r with
      | some h => some (exact_value 16 2 4 h.1 h.2.1 (exponent_part 'p' 'P' h.2.2))
      | none => dec
    else dec
  | _ => dec

/-- The forms `INF`, `INFINITY` and `NAN`, `NAN(...)` of `strtof`, case
ignored: each is decided by its first three letters. -/
def float_named (neg : Bool) (s : Str) : Option FloatVal :=
  if (s.take 3).map Char.toLower = ['i', 'n', 'f'] then some (FloatVal.inf neg)
  else if (s.take 3).map Char.toLower = ['n', 'a', 'n'] then some FloatVal.nan
  else none

/-- Rounding to the nearest integer, ties to even, of `n / d`. -/
def round_half_even (n d : Nat) : Nat :=
  if 2 * (n % d) < d then n / d
  else if d < 2 * (n % d) then n / d + 1
  else if (n / d) % 2 = 0 then n / d else n / d + 1

/-- The floor of the binary logarithm of `n` (zero for `n < 2`), by halving at
most `fuel` times. -/
def log2_loop : Nat → Nat → Nat
  | 0, _ => 0
  | fuel + 1, n => if 2 ≤ n then log2_loop fuel (n / 2) + 1 else 0

/-- The conversion of the exact value `num / den` (`den` positive) to `float`
in round-to-nearest: 24 significant bits, least exponent `-149`. A result at
or above `2 ^ 128` is a range error. A value below the least normal number
`2 ^ (-126)` that is not a `float` is a range error too (left to the
implementation by the C standard; glibc reports it). -/
def round_float (neg : Bool) (num den : Nat) : Except Fault FloatVal :=
  if num = 0 then Except.ok (FloatVal.finite neg 0 0)
  else
    let n := num * 2 ^ 149
    let e := log2_loop (n / den) (n / den) - 23
    let m := round_half_even n (den * 2 ^ e)
    if 2 ^ 128 * 2 ^ 149 ≤ m * 2 ^ e then Except.error Fault.out_of_range
    else if n < den * 2 ^ 23 ∧ n % den ≠ 0 then Except.error Fault.out_of_range
    else Except.ok (FloatVal.finite neg m e)

/-- The function `std::stof(str)`, a wrapper of `strtof` in the C locale: no
conversion is `invalid_argument`, a range error is `out_of_range`. -/
def stof (str : Str) : Except Fault FloatVal :=
  let s := take_sign (str.dropWhile isspace)
  match float_named s.1 s.2 with
  | some v => Except.ok v
  | none =>
    match float_number s.2 with
    | some v => round_float s.1 v.1 v.2
    | none => Except.error Fault.invalid_argument

/-- The comparison `f > 1.05`: the `float` is widened to `double` and compared
with the `double` nearest to 1.05, which is `4728779608739021 * 2 ^ (-52)`. -/
def gt_1_05 : FloatVal → Bool
  | FloatVal.finite neg m e => !neg && decide (4728779608739021 * 2 ^ 97 < m * 2 ^ e)
  | FloatVal.inf neg => !neg
  | FloatVal.nan => false

deriving instance DecidableEq for Except

/-! ## `process_request_and_respond` and the completion handlers -/

/-- Subtraction in `size_t` (64 bits). -/
def size_sub (a b : Nat) : Nat := (a + (2 ^ 64 - b % 2 ^ 64)) % 2 ^ 64

/-- The call `process_request_and_respond(socket)`: a fresh `read_buffer` is
made and `async_read_until` is issued on it. -/
def process_request_and_respond : Effect := ⟨none, [Op.async_read_until], none⟩

/-- The completion handler of `async_write` in `respond`. -/
def write_handler (ec : Bool) (request : Request) : Effect :=
  if ec then Effect.nothing
  else
    match stof request.http_version with
    | Except.ok f => if gt_1_05 f then process_request_and_respond else Effect.nothing
    | Except.error x => ⟨none, [], some x⟩

/-- The completion handler of `async_read` in `process_request_and_respond`;
`read_buffer` is what the buffer holds at completion. -/
def read_handler (regex_match : Str → Str → Option (List Str)) (s : ServerBase)
    (ec : Bool) (read_buffer : Str) (request : Request) : Effect :=
  if ec then Effect.nothing
  else respond regex_match s.all_resources { request with content := some read_buffer }

/-- The completion handler of `async_read_until` in
`process_request_and_respond`; `read_buffer` is what the buffer holds at
completion. -/
def read_until_handler (regex_match : Str → Str → Option (List Str)) (s : ServerBase)
    (ec : Bool) (read_buffer : Str) (bytes_transferred : Nat) : Effect :=
  if ec then Effect.nothing
  else
    match parse_request ⟨read_buffer, true⟩ with
    | none => ⟨none, [], some Fault.undefined_behaviour⟩
    | some (request, stream) =>
      match umap_find "Content-Length".toList request.header with
      | some v =>
        match stoull v with
        | Except.ok n =>
          ⟨none, [Op.async_read stream.data
            (size_sub n (size_sub read_buffer.length bytes_transferred)) request], none⟩
        | Except.error x => ⟨none, [], some x⟩
      | none => respond regex_match s.all_resources request

/-! ## The connection and its transport -/

/-- One accepted connection: the bytes the client has sent that no read has
taken yet, the bytes written to it, the operations outstanding, the route
handlers invoked so far (oldest first), and the fault raised, if any. -/
structure Connection where
  inbound : Str
  outbound : Str
  pending : List Op
  calls : List (Handler × Request)
  fault : Option Fault

/-- The state change of a connection by a completion handler's effect. -/
def Connection.apply (c : Connection) (e : Effect) : Connection :=
  { c with pending := c.pending ++ e.issued, calls := c.calls ++ e.invoked.toList,
           fault := e.fault.orElse (fun _ => c.fault) }

/-- The connection as `HttpServer::accept` hands it over: the accept handler
calls `process_request_and_respond(socket)`. -/
def accepted (inbound : Str) : Connection :=
  ⟨inbound, [], process_request_and_respond.issued, [], none⟩

/-- The `bytes_transferred` of `async_read_until`: the length of the shortest
prefix of the buffer that ends with the delimiter CR LF CR LF. -/
def find_delim : Str → Option Nat
  | [] => none
  | c :: cs =>
    if List.isPrefixOf ['\r', '\n', '\r', '\n'] (c :: cs) then some 4
    else (find_delim cs).map (fun n => n + 1)

/-- The successful completion of the outstanding operation. For
`async_read_until`, `k` is the number of bytes the transport has moved into
the buffer when the delimiter is first seen there (it may lie past the
delimiter); the operation cannot complete on a buffer without the delimiter.
An exact read of `n` bytes completes when `n` bytes are there. -/
def complete (regex_match : Str → Str → Option (List Str)) (s : ServerBase) (k : Nat)
    (c : Connection) : Option Connection :=
  match c.pending with
  | [] => none
  | Op.async_read_until :: ops =>
    match find_delim (c.inbound.take k) with
    | some bytes_transferred =>
      some (Connection.apply { c with inbound := c.inbound.drop k, pending := ops }
        (read_until_handler regex_match s false (c.inbound.take k) bytes_transferred))
    | none => none
  | Op.async_read read_buffer n request :: ops =>
    if n ≤ c.inbound.length then
      some (Connection.apply { c with inbound := c.inbound.drop n, pending := ops }
        (read_handler regex_match s false (read_buffer ++ c.inbound.take n) request))
    else none
  | Op.async_write write_buffer request :: ops =>
    some (Connection.apply { c with outbound := c.outbound ++ write_buffer, pending := ops }
      (write_handler false request))

/-- The completion of the outstanding operation with an error code. -/
def complete_error (regex_match : Str → Str → Option (List Str)) (s : ServerBase)
    (c : Connection) : Option Connection :=
  match c.pending with
  | [] => none
  | Op.async_read_until :: ops =>
    some (Connection.apply { c with pending := ops } (read_until_handler regex_match s true [] 0))
  | Op.async_read read_buffer _ request :: ops =>
    some (Connection.apply { c with pending := ops }
      (read_handler regex_match s true read_buffer request))
  | Op.async_write _ request :: ops =>
    some (Connection.apply { c with pending := ops } (write_handler true request))

/-- The states a connection can be in: as accepted, or after a completion,
successful or not, of an outstanding operation of a reachable state. -/
inductive Reachable (regex_match : Str → Str → Option (List Str)) (s : ServerBase) :
    Connection → Prop where
  | accept (inbound : Str) : Reachable regex_match s (accepted inbound)
  | complete (k : Nat) (c c1 : Connection) : Reachable regex_match s c →
      complete regex_match s k c = some c1 → Reachable regex_match s c1
  | complete_error (c c1 : Connection) : Reachable regex_match s c →
      complete_error regex_match s c = some c1 → Reachable regex_match s c1

/-- Successive successful completions, with the transport's choices `ks`. -/
def run (regex_match : Str → Str → Option (List Str)) (s : ServerBase) :
    List Nat → Connection → Option Connection
  | [], c => some c
  | k :: ks, c =>
    match complete regex_match s k c with
    | some c1 => run regex_match s ks c1
    | none => none

/-! ## A matcher for the route patterns of the examples -/

/-- Whether a pattern character admits a subject character: the wildcard
admits all but line terminators, any other character admits itself. -/
def atom_match (a x : Char) : Bool := if a = '.' then dot_char x else decide (a = x)

/-- The matches of `a*` followed by what `k` matches. -/
def star_match (a : Char) (k : Str → Bool) : Str → Bool
  | [] => k []
  | x :: xs => k (x :: xs) || (atom_match a x && star_match a k xs)

/-- Whether the rest of a pattern matches the whole of a subject, for
patterns made of characters, the wildcard `.`, the postfix operators `*` and
`?` on one of these, and a closing `$`. -/
def lite_match : Str → Str → Bool
  | [], t => t.isEmpty
  | ['$'], t => t.isEmpty
  | a :: '*' :: p, t => star_match a (lite_match p) t
  | a :: '?' :: p, t =>
    lite_match p t ||
      (match t with
       | [] => false
       | x :: xs => atom_match a x && lite_match p xs)
  | a :: p, t =>
    match t with
    | [] => false
    | x :: xs => atom_match a x && lite_match p xs

/-- An instance of `std::regex_match(s, sm, std::regex(e))` for the ECMAScript
fragment of `lite_match`, with an optional opening `^`. Such a pattern has no
group, so the only sub-match is the whole subject. -/
def regex_lite (s e : Str) : Option (List Str) :=
  let body := match e with
    | '^' :: p => p
    | p => p
  if lite_match body s then some [s] else none

/-! ## Inputs and tables the statements are about -/

/-- The line terminator CR LF. -/
def crlf : Str := ['\r', '\n']

/-- The text of a request line, without its terminator. -/
def request_line (M P V : Str) : Str := M ++ ' ' :: (P ++ (" HTTP/".toList ++ V))

/-- The text of a header line with name `nt.1` and `nt.2` after the colon. -/
def header_line (nt : Str × Str) : Str := nt.1 ++ ':' :: nt.2

/-- A header block: the request line, the header lines, each ended by CR LF,
and the blank line. -/
def header_block (M P V : Str) (hs : List (Str × Str)) : Str :=
  ((request_line M P V :: hs.map header_line).map (fun l => l ++ crlf)).flatten ++ crlf

/-- The value of a header: the text after the colon, less one leading space. -/
def header_value (text : Str) : Str := skip_space text

/-- The header map after the header lines `hs`, starting from `header`. -/
def headers_of (hs : List (Str × Str)) (header : List (Str × Str)) : List (Str × Str) :=
  hs.foldl (fun m nt => umap_assign nt.1 (header_value nt.2) m) header

/-- What `respond` does when it stops at an entry. -/
def hit (h : Handler) (request : Request) (sm : List Str) : Effect :=
  ⟨some (h, { request with path_match := sm }),
    [Op.async_write (h { request with path_match := sm }) { request with path_match := sm }], none⟩

/-- The iteration order of a `std::map`: keys strictly increasing. -/
def keys_increasing (t : resource_type) : Prop := List.Pairwise (fun a b => a.1 < b.1) t

/-- A handler, told from others by what it writes. -/
def handler_one : Handler := fun _ => "one".toList

/-- A second handler, told from the first by what it writes. -/
def handler_two : Handler := fun _ => "two".toList

/-- The request `GET /info`, as `parse_request` returns it for HTTP/1.1. -/
def get_info : Request := ⟨"GET".toList, "/info".toList, "1.1".toList, none, [], []⟩

/-- A server with the route `^/info/?$` for `GET` in `resource` and a
catch-all `^/.*$` for `GET` in `default_resource`, after `start`. -/
def info_server : ServerBase :=
  start (ServerBase.mk0 [("^/info/?$".toList, [("GET".toList, handler_one)])]
    [("^/.*$".toList, [("GET".toList, handler_two)])])

/-- A handler that writes back the bytes its request's body stream yields
(nothing when the request has no body). -/
def handler_echo : Handler := fun request => request.content.getD []

/-- A server with the route `^/info/?$` for `POST`, answered by
`handler_echo`, after `start`. -/
def echo_server : ServerBase :=
  start (ServerBase.mk0 [("^/info/?$".toList, [("POST".toList, handler_echo)])] [])

/-! ## Routing: lemmas on `respond` -/

theorem qualifies_iff (rm : Str → Str → Option (List Str)) (request : Request)
    (res : Str × method_map) :
    qualifies rm request res ↔
      ∃ sm h, rm request.path res.1 = some sm ∧ umap_find request.method res.2 = some h := by
  unfold qualifies
  constructor
  · intro ⟨h1, h2⟩
    obtain ⟨sm, hsm⟩ := Option.isSome_iff_exists.mp h1
    obtain ⟨h, hh⟩ := Option.isSome_iff_exists.mp h2
    exact ⟨sm, h, hsm, hh⟩
  · rintro ⟨sm, h, hsm, hh⟩
    simp [hsm, hh]

theorem respond_cons_skip (rm : Str → Str → Option (List Str)) (request : Request)
    (res : Str × method_map) (rest : List (Str × method_map))
    (hq : ¬ qualifies rm request res) :
    respond rm (res :: rest) request = respond rm rest request := by
  unfold qualifies at hq
  rw [respond]
  cases h1 : rm request.path res.1 with
  | none => rfl
  | some sm =>
    cases h2 : umap_find request.method res.2 with
    | none => rfl
    | some h => simp [h1, h2] at hq

theorem respond_skip (rm : Str → Str → Option (List Str)) (request : Request)
    (pre rest : List (Str × method_map)) (hpre : ∀ x ∈ pre, ¬ qualifies rm request x) :
    respond rm (pre ++ rest) request = respond rm rest request := by
  induction pre with
  | nil => rfl
  | cons x pre ih =>
    rw [List.cons_append, respond_cons_skip rm request x _ (hpre x (List.mem_cons_self _ _))]
    exact ih (fun y hy => hpre y (List.mem_cons_of_mem _ hy))

theorem respond_cons_hit (rm : Str → Str → Option (List Str)) (request : Request)
    (res : Str × method_map) (rest : List (Str × method_map)) (sm : List Str) (h : Handler)
    (h1 : rm request.path res.1 = some sm) (h2 : umap_find request.method res.2 = some h) :
    respond rm (res :: rest) request = hit h request sm := by
  rw [respond]
  simp only [h1, h2]
  rfl

theorem respond_none (rm : Str → Str → Option (List Str)) (request : Request)
    (l : List (Str × method_map)) (hl : ∀ x ∈ l, ¬ qualifies rm request x) :
    respond rm l request = Effect.nothing := by
  have := respond_skip rm request l [] hl
  rw [List.append_nil] at this
  rw [this]
  rfl

/-- A scan sequence has no qualifying entry, or splits at its first one. -/
theorem first_qualifying (rm : Str → Str → Option (List Str)) (request : Request)
    (l : List (Str × method_map)) :
    (∀ x ∈ l, ¬ qualifies rm request x) ∨
      ∃ pre res post, l = pre ++ res :: post ∧ (∀ x ∈ pre, ¬ qualifies rm request x) ∧
        qualifies rm request res := by
  induction l with
  | nil => left; simp
  | cons a l ih =>
    by_cases ha : qualifies rm request a
    · right
      exact ⟨[], a, l, rfl, by simp, ha⟩
    · rcases ih with h | ⟨pre, res, post, hl, hpre, hres⟩
      · left
        intro x hx
        rcases List.mem_cons.mp hx with rfl | hx
        · exact ha
        · exact h x hx
      · right
        refine ⟨a :: pre, res, post, by rw [hl]; rfl, ?_, hres⟩
        intro x hx
        rcases List.mem_cons.mp hx with rfl | hx
        · exact ha
        · exact hpre x hx

theorem respond_split (rm : Str → Str → Option (List Str)) (request : Request)
    (pre post : List (Str × method_map)) (res : Str × method_map)
    (hpre : ∀ x ∈ pre, ¬ qualifies rm request x) (hres : qualifies rm request res) :
    ∃ sm h, rm request.path res.1 = some sm ∧ umap_find request.method res.2 = some h ∧
      respond rm (pre ++ res :: post) request = hit h request sm := by
  obtain ⟨sm, h, h1, h2⟩ := (qualifies_iff rm request res).mp hres
  exact ⟨sm, h, h1, h2, by rw [respond_skip rm request pre _ hpre,
    respond_cons_hit rm request res post sm h h1 h2]⟩

theorem start_all_resources (resource default_resource : resource_type) :
    (start (ServerBase.mk0 resource default_resource)).all_resources =
      resource ++ default_resource := by
  simp [start, ServerBase.mk0]

/-! ## Routing: the claims -/

/-- C1: `respond` on the scan sequence built by `start` (the entries of
`resource`, then those of `default_resource`) invokes the handler of the
first entry whose pattern matches the whole path and whose method map has
the method, skipping every earlier entry; a qualifying entry of `resource`
wins over every entry of `default_resource`; and no handler is invoked
exactly when no entry qualifies. -/
theorem respond_first_match (rm : Str → Str → Option (List Str))
    (resource default_resource : resource_type) (request : Request) :
    (start (ServerBase.mk0 resource default_resource)).all_resources =
        resource ++ default_resource ∧
      ((respond rm (start (ServerBase.mk0 resource default_resource)).all_resources
          request).invoked = none ↔
        ∀ res ∈ resource ++ default_resource, ¬ qualifies rm request res) ∧
      ((∀ res ∈ resource ++ default_resource, ¬ qualifies rm request res) ∨
        ∃ pre res post sm h,
          resource ++ default_resource = pre ++ res :: post ∧
          (∀ x ∈ pre, ¬ qualifies rm request x) ∧
          rm request.path res.1 = some sm ∧ umap_find request.method res.2 = some h ∧
          respond rm (start (ServerBase.mk0 resource default_resource)).all_resources request =
            hit h request sm) ∧
      ((∃ res ∈ resource, qualifies rm request res) →
        ∃ pre res post sm h,
          resource = pre ++ res :: post ∧
          (∀ x ∈ pre, ¬ qualifies rm request x) ∧
          rm request.path res.1 = some sm ∧ umap_find request.method res.2 = some h ∧
          respond rm (start (ServerBase.mk0 resource default_resource)).all_resources request =
            hit h request sm) := by
  rw [start_all_resources]
  refine ⟨rfl, ?_, ?_, ?_⟩
  · rcases first_qualifying rm request (resource ++ default_resource) with hn | ⟨pre, res, post, hl, hpre, hres⟩
    · rw [respond_none rm request _ hn]
      exact ⟨fun _ => hn, fun _ => rfl⟩
    · obtain ⟨sm, h, _, _, hr⟩ := respond_split rm request pre post res hpre hres
      rw [hl, hr]
      constructor
      · intro hc
        simp [hit] at hc
      · intro hall
        exact absurd hres (hall res (by simp))
  · rcases first_qualifying rm request (resource ++ default_resource) with hn | ⟨pre, res, post, hl, hpre, hres⟩
    · exact Or.inl hn
    · obtain ⟨sm, h, h1, h2, hr⟩ := respond_split rm request pre post res hpre hres
      exact Or.inr ⟨pre, res, post, sm, h, hl, hpre, h1, h2, by rw [hl, hr]⟩
  · rintro ⟨x, hx, hqx⟩
    rcases first_qualifying rm request resource with hn | ⟨pre, res, post, hl, hpre, hres⟩
    · exact absurd hqx (hn x hx)
    · obtain ⟨sm, h, h1, h2, hr⟩ :=
        respond_split rm request pre (post ++ default_resource) res hpre hres
      refine ⟨pre, res, post, sm, h, hl, hpre, h1, h2, ?_⟩
      rw [hl, List.append_assoc, List.cons_append]
      exact hr

/-- C1, at two tables that both have a qualifying entry for `GET /info`: the
entry of the explicit table is the one whose handler runs. -/
theorem respond_first_match_witness :
    (∃ res ∈ [("^/info/?$".toList, [("GET".toList, handler_one)])],
        qualifies regex_lite get_info res) ∧
      ∃ pre res post sm h,
        [("^/info/?$".toList, [("GET".toList, handler_one)])] = pre ++ res :: post ∧
        (∀ x ∈ pre, ¬ qualifies regex_lite get_info x) ∧
        regex_lite get_info.path res.1 = some sm ∧
        umap_find get_info.method res.2 = some h ∧
        respond regex_lite (start (ServerBase.mk0
            [("^/info/?$".toList, [("GET".toList, handler_one)])]
            [("/info".toList, [("GET".toList, handler_two)])])).all_resources get_info =
          hit h get_info sm :=
  have hq : ∃ res ∈ [("^/info/?$".toList, [("GET".toList, handler_one)])],
      qualifies regex_lite get_info res := ⟨_, List.mem_cons_self _ _, by decide⟩
  ⟨hq, (respond_first_match regex_lite _ _ get_info).2.2.2 hq⟩

/-- C6: when no entry of either table both matches the whole path and has
the method, `respond` invokes no handler and issues no operation (so no
write and no further read), and leaves the connection as it was. -/
theorem respond_no_match (rm : Str → Str → Option (List Str))
    (resource default_resource : resource_type) (request : Request)
    (hr : ∀ res ∈ resource, ¬ qualifies rm request res)
    (hd : ∀ res ∈ default_resource, ¬ qualifies rm request res) :
    (respond rm (start (ServerBase.mk0 resource default_resource)).all_resources
        request).invoked = none ∧
      (respond rm (start (ServerBase.mk0 resource default_resource)).all_resources
        request).issued = [] ∧
      (respond rm (start (ServerBase.mk0 resource default_resource)).all_resources
        request).fault = none ∧
      ∀ c : Connection, Connection.apply c
        (respond rm (start (ServerBase.mk0 resource default_resource)).all_resources
          request) = c := by
  have hn : respond rm (start (ServerBase.mk0 resource default_resource)).all_resources
      request = Effect.nothing := by
    rw [start_all_resources]
    apply respond_none
    intro x hx
    rcases List.mem_append.mp hx with h | h
    · exact hr x h
    · exact hd x h
  rw [hn]
  refine ⟨rfl, rfl, rfl, ?_⟩
  intro c
  cases c
  simp [Connection.apply, Effect.nothing]

/-- C6, at a table whose only pattern matches `/info` but has no `GET`, and a
default table whose pattern does not match. -/
theorem respond_no_match_witness :
    (respond regex_lite (start (ServerBase.mk0
        [("^/info/?$".toList, [("POST".toList, handler_one)])]
        [("^/other$".toList, [("GET".toList, handler_two)])])).all_resources
        get_info).invoked = none ∧
      (respond regex_lite (start (ServerBase.mk0
        [("^/info/?$".toList, [("POST".toList, handler_one)])]
        [("^/other$".toList, [("GET".toList, handler_two)])])).all_resources
        get_info).issued = [] :=
  have h := respond_no_match regex_lite
    [("^/info/?$".toList, [("POST".toList, handler_one)])]
    [("^/other$".toList, [("GET".toList, handler_two)])] get_info
    (by intro res hres; rw [List.mem_singleton] at hres; subst hres; decide)
    (by intro res hres; rw [List.mem_singleton] at hres; subst hres; decide)
  ⟨h.1, h.2.1⟩

/-! ## Routing: the order of a table -/

theorem map_assign_keys (pattern method : Str) (h : Handler) (t : resource_type)
    (x : Str × method_map) (hx : x ∈ map_assign pattern method h t) :
    x.1 = pattern ∨ ∃ y ∈ t, y.1 = x.1 := by
  induction t with
  | nil =>
    simp only [map_assign, List.mem_singleton] at hx
    left; rw [hx]
  | cons a t ih =>
    obtain ⟨p, ms⟩ := a
    simp only [map_assign] at hx
    split at hx
    · rcases List.mem_cons.mp hx with rfl | hx
      · left; rfl
      · right; exact ⟨x, hx, rfl⟩
    · split at hx
      · rcases List.mem_cons.mp hx with rfl | hx
        · right; exact ⟨(p, ms), List.mem_cons_self _ _, rfl⟩
        · right; exact ⟨x, List.mem_cons_of_mem _ hx, rfl⟩
      · rcases List.mem_cons.mp hx with rfl | hx
        · right; exact ⟨(p, ms), List.mem_cons_self _ _, rfl⟩
        · rcases ih hx with h1 | ⟨y, hy, hy1⟩
          · left; exact h1
          · right; exact ⟨y, List.mem_cons_of_mem _ hy, hy1⟩

theorem map_assign_increasing (pattern method : Str) (h : Handler) (t : resource_type)
    (ht : keys_increasing t) : keys_increasing (map_assign pattern method h t) := by
  unfold keys_increasing at *
  induction t with
  | nil => simp [map_assign]
  | cons a t ih =>
    obtain ⟨p, ms⟩ := a
    rw [List.pairwise_cons] at ht
    simp only [map_assign]
    split
    · rename_i hlt
      rw [List.pairwise_cons]
      refine ⟨?_, List.pairwise_cons.mpr ht⟩
      intro y hy
      rcases List.mem_cons.mp hy with rfl | hy
      · exact hlt
      · exact lt_trans hlt (ht.1 y hy)
    · split
      · rw [List.pairwise_cons]
        exact ⟨ht.1, ht.2⟩
      · rename_i hnlt hne
        rw [List.pairwise_cons]
        refine ⟨?_, ih ht.2⟩
        intro y hy
        rcases map_assign_keys pattern method h t y hy with h1 | ⟨z, hz, hz1⟩
        · rw [h1]
          rcases lt_trichotomy pattern p with h3 | h3 | h3
          · exact absurd h3 hnlt
          · exact absurd h3 hne
          · exact h3
        · rw [← hz1]
          exact ht.1 z hz

theorem registered_increasing (regs : List (Str × Str × Handler)) :
    keys_increasing (registered regs) := by
  unfold registered
  have key : ∀ (l : List (Str × Str × Handler)) (t : resource_type), keys_increasing t →
      keys_increasing (l.foldl (fun t r => map_assign r.1 r.2.1 r.2.2 t) t) := by
    intro l
    induction l with
    | nil => intro t ht; exact ht
    | cons r l ih =>
      intro t ht
      exact ih _ (map_assign_increasing _ _ _ t ht)
  exact key regs [] List.Pairwise.nil

/-- In a table with increasing keys, the scan stops at a qualifying entry
whose key is at most the key of any qualifying entry. -/
theorem respond_least_key (rm : Str → Str → Option (List Str)) (request : Request)
    (t rest : resource_type) (ht : keys_increasing t) (e1 : Str × method_map) (h1 : e1 ∈ t)
    (q1 : qualifies rm request e1) :
    ∃ res sm h, res ∈ t ∧ res.1 ≤ e1.1 ∧ rm request.path res.1 = some sm ∧
      umap_find request.method res.2 = some h ∧
      respond rm (t ++ rest) request = hit h request sm := by
  rcases first_qualifying rm request t with hn | ⟨pre, res, post, hl, hpre, hres⟩
  · exact absurd q1 (hn e1 h1)
  · obtain ⟨sm, h, hsm, hh, hr⟩ := respond_split rm request pre (post ++ rest) res hpre hres
    refine ⟨res, sm, h, by rw [hl]; simp, ?_, hsm, hh, ?_⟩
    · rw [hl] at h1 ht
      rcases List.mem_append.mp h1 with hin | hin
      · exact absurd q1 (hpre e1 hin)
      · rcases List.mem_cons.mp hin with heq | hin
        · rw [heq]
        · unfold keys_increasing at ht
          have := (List.pairwise_cons.mp (List.pairwise_append.mp ht).2.1).1 e1 hin
          exact le_of_lt this
    · rw [hl, List.append_assoc, List.cons_append]
      exact hr

/-- C2 as stated fails: `^/info/?$` is registered first and `/info` second in
`resource`, both match `GET /info` with the method, and the handler invoked is
that of `/info`, registered second: `std::map` iterates in key order, and
`/` sorts before `^`. -/
theorem registration_order_counterexample :
    qualifies regex_lite get_info ("^/info/?$".toList, [("GET".toList, handler_one)]) ∧
      qualifies regex_lite get_info ("/info".toList, [("GET".toList, handler_two)]) ∧
      (start (ServerBase.mk0 (registered [("^/info/?$".toList, "GET".toList, handler_one),
          ("/info".toList, "GET".toList, handler_two)]) [])).all_resources =
        [("/info".toList, [("GET".toList, handler_two)]),
          ("^/info/?$".toList, [("GET".toList, handler_one)])] ∧
      (respond regex_lite (start (ServerBase.mk0
          (registered [("^/info/?$".toList, "GET".toList, handler_one),
            ("/info".toList, "GET".toList, handler_two)]) [])).all_resources get_info).invoked =
        some (handler_two, { get_info with path_match := ["/info".toList] }) ∧
      handler_two get_info ≠ handler_one get_info := by
  refine ⟨by decide, by decide, rfl, rfl, by decide⟩

/-- C2, amended: within one table precedence follows the order of the pattern
strings (the iteration order of `std::map`), not the order of registration.
For a table built by any sequence of registrations and two of its entries
that both qualify, the first with the smaller pattern string, the handler
invoked belongs to an entry of that table whose pattern is at most the
smaller one, hence never to the entry with the larger pattern; this holds
for `resource`, and for `default_resource` when no entry of `resource`
qualifies. -/
theorem respond_key_order (rm : Str → Str → Option (List Str))
    (regs : List (Str × Str × Handler)) (other : resource_type) (request : Request)
    (e1 e2 : Str × method_map)
    (h1 : e1 ∈ registered regs) (h2 : e2 ∈ registered regs)
    (q1 : qualifies rm request e1) (q2 : qualifies rm request e2) (hlt : e1.1 < e2.1) :
    (∃ res sm h, res ∈ registered regs ∧ res.1 ≤ e1.1 ∧ res.1 < e2.1 ∧
        rm request.path res.1 = some sm ∧ umap_find request.method res.2 = some h ∧
        respond rm (start (ServerBase.mk0 (registered regs) other)).all_resources request =
          hit h request sm) ∧
      ((∀ x ∈ other, ¬ qualifies rm request x) →
        ∃ res sm h, res ∈ registered regs ∧ res.1 ≤ e1.1 ∧ res.1 < e2.1 ∧
          rm request.path res.1 = some sm ∧ umap_find request.method res.2 = some h ∧
          respond rm (start (ServerBase.mk0 other (registered regs))).all_resources request =
            hit h request sm) := by
  have _ := h2
  have _ := q2
  constructor
  · obtain ⟨res, sm, h, hm, hle, hsm, hh, hr⟩ :=
      respond_least_key rm request (registered regs) other (registered_increasing regs) e1 h1 q1
    exact ⟨res, sm, h, hm, hle, lt_of_le_of_lt hle hlt, hsm, hh, by
      rw [start_all_resources]; exact hr⟩
  · intro hother
    obtain ⟨res, sm, h, hm, hle, hsm, hh, hr⟩ :=
      respond_least_key rm request (registered regs) [] (registered_increasing regs) e1 h1 q1
    refine ⟨res, sm, h, hm, hle, lt_of_le_of_lt hle hlt, hsm, hh, ?_⟩
    rw [start_all_resources, respond_skip rm request other _ hother]
    rw [List.append_nil] at hr
    exact hr

/-- C2 amended, at the two registrations of the counterexample. -/
theorem respond_key_order_witness :
    ∃ res sm h,
      res ∈ registered [("^/info/?$".toList, "GET".toList, handler_one),
        ("/info".toList, "GET".toList, handler_two)] ∧
      res.1 ≤ "/info".toList ∧ res.1 < "^/info/?$".toList ∧
      regex_lite get_info.path res.1 = some sm ∧ umap_find get_info.method res.2 = some h ∧
      respond regex_lite (start (ServerBase.mk0
        (registered [("^/info/?$".toList, "GET".toList, handler_one),
          ("/info".toList, "GET".toList, handler_two)]) [])).all_resources get_info =
        hit h get_info sm :=
  (respond_key_order regex_lite
    [("^/info/?$".toList, "GET".toList, handler_one), ("/info".toList, "GET".toList, handler_two)]
    [] get_info
    ("/info".toList, [("GET".toList, handler_two)])
    ("^/info/?$".toList, [("GET".toList, handler_one)])
    (List.Mem.head _) (List.Mem.tail _ (List.Mem.head _))
    (by decide) (by decide) (by decide)).1

/-! ## Parsing: lemmas -/

theorem read_line_append (l rest : Str) (hl : ∀ c ∈ l, c ≠ '\n') :
    read_line (l ++ '\n' :: rest) = (l, some rest) := by
  induction l with
  | nil => simp [read_line]
  | cons c l ih =>
    have hc : c ≠ '\n' := hl c (List.mem_cons_self _ _)
    have := ih (fun x hx => hl x (List.mem_cons_of_mem _ hx))
    simp [read_line, hc, this]

theorem getline_append (l rest line : Str) (hl : ∀ c ∈ l, c ≠ '\n') :
    getline ⟨l ++ '\n' :: rest, true⟩ line = (⟨rest, true⟩, l) := by
  simp [getline, read_line_append l rest hl]

theorem pop_back_concat (l : Str) (c : Char) : pop_back (l ++ [c]) = some l := by
  simp [pop_back]

theorem read_line_length (d : Str) : (read_line d).1.length ≤ d.length ∧
    ∀ r, (read_line d).2 = some r → r.length + (read_line d).1.length < d.length := by
  induction d with
  | nil => simp [read_line]
  | cons c cs ih =>
    unfold read_line
    split
    · simp
    · refine ⟨by simpa using ih.1, fun r hr => ?_⟩
      have := ih.2 r hr
      simp only [List.length_cons] at *
      omega

/-- Each iteration of the header loop lowers `stream_measure`. -/
theorem getline_measure (is : IStream) (line line2 : Str)
    (hp : pop_back (getline is line).2 = some line2) :
    stream_measure (getline is line).1 line2 < stream_measure is line := by
  have hlen : line2.length + 1 = (getline is line).2.length := by
    unfold pop_back at hp
    split at hp
    · cases hp
    · rename_i hne
      cases hp
      rw [List.length_dropLast]
      have := List.length_pos.mpr hne
      omega
  unfold stream_measure
  unfold getline at hlen ⊢
  cases hg : is.good with
  | false => simp only [hg, Bool.false_eq_true, if_false] at hlen ⊢; omega
  | true =>
    simp only [hg, if_true] at hlen ⊢
    have hr := read_line_length is.data
    rcases hrl : read_line is.data with ⟨l, _ | rest⟩
    · rw [hrl] at hlen hr
      simp only [Bool.false_eq_true, if_false] at hlen ⊢
      have := hr.1
      simp only at this
      omega
    · rw [hrl] at hlen hr
      simp only [if_true] at hlen ⊢
      have := hr.2 rest rfl
      simp only at this
      omega

theorem header_loop_undefined (fuel : Nat) (is : IStream) (line : Str)
    (h : stream_measure is line < fuel + 1) (header : List (Str × Str))
    (hp : pop_back (getline is line).2 = none) :
    header_loop (fuel + 1) is line h header = none := by
  rw [header_loop]
  split
  · rfl
  · rename_i heq
    rw [hp] at heq
    cases heq

theorem header_loop_stop (fuel : Nat) (is : IStream) (line line2 : Str)
    (h : stream_measure is line < fuel + 1) (header : List (Str × Str))
    (hp : pop_back (getline is line).2 = some line2) (hr : header_regex line2 = none) :
    header_loop (fuel + 1) is line h header = some (header, (getline is line).1) := by
  rw [header_loop]
  split
  · rename_i heq
    rw [hp] at heq
    cases heq
  · rename_i l2 heq
    rw [hp] at heq
    cases heq
    simp [hr]

theorem header_loop_next (fuel : Nat) (is : IStream) (line line2 name value : Str)
    (h : stream_measure is line < fuel + 1) (header : List (Str × Str))
    (hp : pop_back (getline is line).2 = some line2)
    (hr : header_regex line2 = some (name, value)) :
    ∃ h1, header_loop (fuel + 1) is line h header =
      header_loop fuel (getline is line).1 line2 h1 (umap_assign name value header) := by
  rw [header_loop]
  split
  · rename_i heq
    rw [hp] at heq
    cases heq
  · rename_i l2 heq
    rw [hp] at heq
    cases heq
    split
    · rename_i n v heq2
      rw [hr] at heq2
      cases heq2
      exact ⟨by have := getline_measure is line line2 hp; omega, rfl⟩
    · rename_i heq2
      rw [hr] at heq2
      cases heq2

theorem takeWhile_dropWhile_stop (p : Char → Bool) (l r : Str) (x : Char)
    (hl : ∀ c ∈ l, p c = true) (hx : p x = false) :
    (l ++ x :: r).takeWhile p = l ∧ (l ++ x :: r).dropWhile p = x :: r := by
  induction l with
  | nil => simp [List.takeWhile, List.dropWhile, hx]
  | cons c l ih =>
    have hc := hl c (List.mem_cons_self _ _)
    have := ih (fun y hy => hl y (List.mem_cons_of_mem _ hy))
    simp [List.takeWhile, List.dropWhile, hc, this]

theorem takeWhile_dropWhile_all (p : Char → Bool) (l : Str) (hl : ∀ c ∈ l, p c = true) :
    l.takeWhile p = l ∧ l.dropWhile p = [] := by
  induction l with
  | nil => simp
  | cons c l ih =>
    have hc := hl c (List.mem_cons_self _ _)
    have := ih (fun y hy => hl y (List.mem_cons_of_mem _ hy))
    simp [List.takeWhile, List.dropWhile, hc, this]

theorem request_line_regex_line (M P V : Str) (hM : ∀ c ∈ M, c ≠ ' ')
    (hP : ∀ c ∈ P, c ≠ ' ') (hV : ∀ c ∈ V, c ≠ ' ') :
    request_line_regex (request_line M P V) = some (M, P, V) := by
  have nc : ∀ l : Str, (∀ c ∈ l, c ≠ ' ') → ∀ c ∈ l, not_char ' ' c = true := by
    intro l hl c hc
    simp [not_char, hl c hc]
  have h1 := takeWhile_dropWhile_stop (not_char ' ') M (P ++ (" HTTP/".toList ++ V)) ' '
    (nc M hM) (by simp [not_char])
  have h2 := takeWhile_dropWhile_stop (not_char ' ') P ("HTTP/".toList ++ V) ' '
    (nc P hP) (by simp [not_char])
  have h3 := takeWhile_dropWhile_all (not_char ' ') V (nc V hV)
  unfold request_line_regex request_line
  rw [h1.1, h1.2]
  simp only
  have hshape : P ++ (" HTTP/".toList ++ V) = P ++ ' ' :: ("HTTP/".toList ++ V) := rfl
  rw [hshape, h2.1, h2.2]
  have hshape2 : ' ' :: ("HTTP/".toList ++ V) = ' ' :: 'H' :: 'T' :: 'T' :: 'P' :: '/' :: V := rfl
  rw [hshape2]
  simp only [h3.2, if_true]

theorem header_regex_line (name text : Str) (hn : ∀ c ∈ name, c ≠ ':')
    (ht : ∀ c ∈ text, c ≠ '\r' ∧ c ≠ '\n') :
    header_regex (header_line (name, text)) = some (name, header_value text) := by
  have h1 := takeWhile_dropWhile_stop (not_char ':') name text ':'
    (by intro c hc; simp [not_char, hn c hc]) (by simp [not_char])
  have hv : ∀ c ∈ header_value text, dot_char c = true := by
    intro c hc
    have hmem : c ∈ text := by
      unfold header_value skip_space at hc
      split at hc
      · exact List.mem_cons_of_mem _ hc
      · exact hc
    simp [dot_char, (ht c hmem).1, (ht c hmem).2]
  unfold header_regex header_line
  simp only [h1.1, h1.2]
  have hv2 : (skip_space text).all dot_char = true := List.all_eq_true.mpr hv
  simp only [hv2, if_true]
  rfl

theorem header_regex_nil : header_regex [] = none := rfl

theorem header_loop_lines (hs : List (Str × Str)) (rest : Str)
    (hhs : ∀ nt ∈ hs, (∀ c ∈ nt.1, c ≠ ':' ∧ c ≠ '\n') ∧ (∀ c ∈ nt.2, c ≠ '\r' ∧ c ≠ '\n')) :
    ∀ (fuel : Nat) (line : Str) (header : List (Str × Str))
      (h : stream_measure
        ⟨((hs.map header_line).map (fun l => l ++ crlf)).flatten ++ (crlf ++ rest), true⟩ line
        < fuel),
      header_loop fuel
        ⟨((hs.map header_line).map (fun l => l ++ crlf)).flatten ++ (crlf ++ rest), true⟩
        line h header = some (headers_of hs header, ⟨rest, true⟩) := by
  induction hs with
  | nil =>
    intro fuel line header h
    cases fuel with
    | zero => exact absurd h (Nat.not_lt_zero _)
    | succ fuel =>
      have hg : getline ⟨((([] : List (Str × Str)).map header_line).map
          (fun l => l ++ crlf)).flatten ++ (crlf ++ rest), true⟩ line = (⟨rest, true⟩, ['\r']) :=
        getline_append ['\r'] rest line (by simp)
      have := header_loop_stop fuel _ line [] h header (by rw [hg]; rfl) header_regex_nil
      rw [this, hg]
      rfl
  | cons nt hs ih =>
    intro fuel line header h
    cases fuel with
    | zero => exact absurd h (Nat.not_lt_zero _)
    | succ fuel =>
      have hnt := hhs nt (List.mem_cons_self _ _)
      have hshape : (((nt :: hs).map header_line).map (fun l => l ++ crlf)).flatten ++
          (crlf ++ rest) = (header_line nt ++ ['\r']) ++ '\n' ::
            (((hs.map header_line).map (fun l => l ++ crlf)).flatten ++ (crlf ++ rest)) := by
        simp [crlf]
      have hg : getline ⟨(((nt :: hs).map header_line).map (fun l => l ++ crlf)).flatten ++
          (crlf ++ rest), true⟩ line =
          (⟨((hs.map header_line).map (fun l => l ++ crlf)).flatten ++ (crlf ++ rest), true⟩,
            header_line nt ++ ['\r']) := by
        rw [hshape]
        apply getline_append
        intro c hc
        simp only [header_line, List.mem_append, List.mem_cons, List.mem_singleton,
          List.not_mem_nil, or_false] at hc
        rcases hc with (hc | rfl | hc) | rfl
        · exact (hnt.1 c hc).2
        · decide
        · exact (hnt.2 c hc).2
        · decide
      obtain ⟨h1, hstep⟩ := header_loop_next fuel _ line (header_line nt) nt.1
        (header_value nt.2) h header (by rw [hg]; exact pop_back_concat _ _)
        (header_regex_line nt.1 nt.2 (fun c hc => (hnt.1 c hc).1) hnt.2)
      rw [hstep]
      have h2 := h1
      rw [hg] at h2
      have := ih (fun x hx => hhs x (List.mem_cons_of_mem _ hx)) fuel (header_line nt)
        (umap_assign nt.1 (header_value nt.2) header) h2
      simp only [hg]
      rw [this]
      rfl

theorem parse_request_of_line (is is1 : IStream) (line1 line m p v : Str)
    (res : Option (List (Str × Str) × IStream))
    (hg : getline is [] = (is1, line1)) (hp : pop_back line1 = some line)
    (hr : request_line_regex line = some (m, p, v))
    (hl : ∀ fuel h, header_loop fuel is1 line h [] = res) :
    parse_request is = res.map (fun r => (⟨m, p, v, none, r.1, []⟩, r.2)) := by
  have h1 : (getline is []).1 = is1 := by rw [hg]
  have h2 : (getline is []).2 = line1 := by rw [hg]
  subst h1
  subst h2
  unfold parse_request
  simp only [hp, hr, hl]
  cases res with
  | none => rfl
  | some r => rfl

theorem parse_request_no_match (is is1 : IStream) (line1 line : Str)
    (hg : getline is [] = (is1, line1)) (hp : pop_back line1 = some line)
    (hr : request_line_regex line = none) :
    parse_request is = some (Request.empty, is1) := by
  have h1 : (getline is []).1 = is1 := by rw [hg]
  have h2 : (getline is []).2 = line1 := by rw [hg]
  subst h1
  subst h2
  unfold parse_request
  simp only [hp, hr]

theorem header_block_shape (M P V : Str) (hs : List (Str × Str)) (rest : Str) :
    header_block M P V hs ++ rest = (request_line M P V ++ ['\r']) ++ '\n' ::
      (((hs.map header_line).map (fun l => l ++ crlf)).flatten ++ (crlf ++ rest)) := by
  simp [header_block, crlf]

theorem parse_request_block (M P V : Str) (hs : List (Str × Str)) (rest : Str)
    (hM : ∀ c ∈ M, c ≠ ' ' ∧ c ≠ '\n') (hP : ∀ c ∈ P, c ≠ ' ' ∧ c ≠ '\n')
    (hV : ∀ c ∈ V, c ≠ ' ' ∧ c ≠ '\n')
    (hhs : ∀ nt ∈ hs, (∀ c ∈ nt.1, c ≠ ':' ∧ c ≠ '\n') ∧ (∀ c ∈ nt.2, c ≠ '\r' ∧ c ≠ '\n')) :
    parse_request ⟨header_block M P V hs ++ rest, true⟩ =
      some (⟨M, P, V, none, headers_of hs [], []⟩, ⟨rest, true⟩) := by
  have hg : getline ⟨header_block M P V hs ++ rest, true⟩ [] =
      (⟨((hs.map header_line).map (fun l => l ++ crlf)).flatten ++ (crlf ++ rest), true⟩,
        request_line M P V ++ ['\r']) := by
    rw [header_block_shape]
    apply getline_append
    intro c hc
    simp only [request_line, List.mem_append, List.mem_cons, List.mem_singleton,
      List.not_mem_nil, or_false] at hc
    rcases hc with (hc | rfl | hc | hc | hc) | rfl
    · exact (hM c hc).2
    · decide
    · exact (hP c hc).2
    · revert hc; revert c; decide
    · exact (hV c hc).2
    · decide
  rw [parse_request_of_line _ _ _ (request_line M P V) M P V _ hg (pop_back_concat _ _)
    (request_line_regex_line M P V (fun c hc => (hM c hc).1) (fun c hc => (hP c hc).1)
      (fun c hc => (hV c hc).1))
    (fun fuel h => header_loop_lines hs rest hhs fuel _ [] h)]
  rfl

theorem umap_find_assign (k k1 v : Str) (m : List (Str × Str)) :
    umap_find k (umap_assign k1 v m) = if k1 = k then some v else umap_find k m := by
  induction m with
  | nil => simp [umap_assign, umap_find]
  | cons a m ih =>
    obtain ⟨k2, v2⟩ := a
    by_cases h21 : k2 = k1
    · subst h21
      by_cases h2 : k2 = k <;> simp [umap_assign, umap_find, h2]
    · by_cases h2 : k2 = k
      · subst h2
        have : ¬ k1 = k2 := fun h => h21 h.symm
        simp [umap_assign, umap_find, h21, this]
      · simp [umap_assign, umap_find, h21, h2, ih]

theorem headers_of_absent (name : Str) (hs : List (Str × Str)) :
    ∀ header, (∀ x ∈ hs, x.1 ≠ name) →
      umap_find name (headers_of hs header) = umap_find name header := by
  induction hs with
  | nil => intro header _; rfl
  | cons nt hs ih =>
    intro header hne
    have h1 : nt.1 ≠ name := hne nt (List.mem_cons_self _ _)
    show umap_find name (headers_of hs (umap_assign nt.1 (header_value nt.2) header)) = _
    rw [ih _ (fun x hx => hne x (List.mem_cons_of_mem _ hx)), umap_find_assign]
    simp [h1]

theorem headers_of_last (name text : Str) (pre post : List (Str × Str))
    (hpost : ∀ x ∈ post, x.1 ≠ name) :
    ∀ header, umap_find name (headers_of (pre ++ (name, text) :: post) header) =
      some (header_value text) := by
  induction pre with
  | nil =>
    intro header
    show umap_find name (headers_of post (umap_assign name (header_value text) header)) = _
    rw [headers_of_absent name post _ hpost, umap_find_assign]
    simp
  | cons nt pre ih =>
    intro header
    exact ih _

theorem find_delim_lf (s : Str) : find_delim ('\n' :: s) = (find_delim s).map (fun n => n + 1) := by
  simp [find_delim, List.isPrefixOf]

theorem crlf_not_at_head (L s : Str) (hL : ∀ c ∈ L, c ≠ '\n') (hne : L ≠ []) :
    List.isPrefixOf ['\r', '\n'] (L ++ '\r' :: s) = false := by
  cases L with
  | nil => exact absurd rfl hne
  | cons c L =>
    cases L with
    | nil => simp [List.isPrefixOf]
    | cons d L =>
      have hd : d ≠ '\n' := hL d (by simp)
      simp [List.isPrefixOf]
      intro _ h
      exact absurd h.symm hd

theorem find_delim_cons (c : Char) (t : Str) :
    find_delim (c :: t) =
      if List.isPrefixOf ['\r', '\n', '\r', '\n'] (c :: t) then some 4
      else (find_delim t).map (fun n => n + 1) := rfl

theorem find_delim_line (L s : Str) (hL : ∀ c ∈ L, c ≠ '\n') :
    find_delim (L ++ '\r' :: '\n' :: s) =
      if List.isPrefixOf ['\r', '\n'] s then some (L.length + 4)
      else (find_delim s).map (fun n => n + (L.length + 2)) := by
  induction L with
  | nil =>
    have h1 : List.isPrefixOf ['\r', '\n', '\r', '\n'] ('\r' :: '\n' :: s) =
        List.isPrefixOf ['\r', '\n'] s := by
      simp [List.isPrefixOf]
    rw [List.nil_append, find_delim_cons, h1, find_delim_lf]
    split
    · rfl
    · cases find_delim s <;> simp
  | cons c L ih =>
    have hnp : List.isPrefixOf ['\r', '\n', '\r', '\n'] (c :: (L ++ '\r' :: '\n' :: s)) = false := by
      cases L with
      | nil => simp [List.isPrefixOf]
      | cons d L =>
        have hd : d ≠ '\n' := hL d (by simp)
        simp [List.isPrefixOf]
        intro _ h
        exact absurd h.symm hd
    rw [List.cons_append, find_delim_cons, hnp, ih (fun x hx => hL x (List.mem_cons_of_mem _ hx))]
    simp only [Bool.false_eq_true, if_false, List.length_cons]
    split
    · simp
    · cases find_delim s with
      | none => rfl
      | some n =>
        simp only [Option.map_some', Option.some.injEq]
        omega

theorem find_delim_lines (lines : List Str) (rest : Str)
    (hl : ∀ L ∈ lines, L ≠ [] ∧ ∀ c ∈ L, c ≠ '\n') :
    ∀ L0 : Str, (∀ c ∈ L0, c ≠ '\n') →
      find_delim (((L0 :: lines).map (fun l => l ++ crlf)).flatten ++ (crlf ++ rest)) =
        some (((L0 :: lines).map (fun l => l ++ crlf)).flatten.length + 2) := by
  induction lines with
  | nil =>
    intro L0 h0
    have hshape : ((([L0] : List Str).map (fun l => l ++ crlf)).flatten ++ (crlf ++ rest)) =
        L0 ++ '\r' :: '\n' :: ('\r' :: '\n' :: rest) := by simp [crlf]
    rw [hshape, find_delim_line L0 _ h0]
    simp [List.isPrefixOf, crlf]
  | cons L1 lines ih =>
    intro L0 h0
    have h1 := hl L1 (List.mem_cons_self _ _)
    have hshape : (((L0 :: L1 :: lines).map (fun l => l ++ crlf)).flatten ++ (crlf ++ rest)) =
        L0 ++ '\r' :: '\n' ::
          (((L1 :: lines).map (fun l => l ++ crlf)).flatten ++ (crlf ++ rest)) := by
      simp [crlf]
    have hshape1 : (((L1 :: lines).map (fun l => l ++ crlf)).flatten ++ (crlf ++ rest)) =
        L1 ++ '\r' :: ('\n' :: ((lines.map (fun l => l ++ crlf)).flatten ++ (crlf ++ rest))) := by
      simp [crlf]
    have hnp := crlf_not_at_head L1
      ('\n' :: ((lines.map (fun l => l ++ crlf)).flatten ++ (crlf ++ rest))) h1.2 h1.1
    rw [← hshape1] at hnp
    rw [hshape, find_delim_line L0 _ h0, hnp,
      ih (fun L hL => hl L (List.mem_cons_of_mem _ hL)) L1 h1.2]
    simp [crlf]
    omega

theorem find_delim_block (M P V : Str) (hs : List (Str × Str)) (rest : Str)
    (hM : ∀ c ∈ M, c ≠ ' ' ∧ c ≠ '\n') (hP : ∀ c ∈ P, c ≠ ' ' ∧ c ≠ '\n')
    (hV : ∀ c ∈ V, c ≠ ' ' ∧ c ≠ '\n')
    (hhs : ∀ nt ∈ hs, (∀ c ∈ nt.1, c ≠ ':' ∧ c ≠ '\n') ∧ (∀ c ∈ nt.2, c ≠ '\r' ∧ c ≠ '\n')) :
    find_delim (header_block M P V hs ++ rest) = some (header_block M P V hs).length := by
  have h := find_delim_lines (hs.map header_line) rest (by
    intro L hL
    obtain ⟨nt, hnt, rfl⟩ := List.mem_map.mp hL
    refine ⟨by simp [header_line], ?_⟩
    intro c hc
    simp only [header_line, List.mem_append, List.mem_cons] at hc
    rcases hc with hc | rfl | hc
    · exact ((hhs nt hnt).1 c hc).2
    · decide
    · exact ((hhs nt hnt).2 c hc).2) (request_line M P V) (by
    intro c hc
    simp only [request_line, List.mem_append, List.mem_cons] at hc
    rcases hc with hc | rfl | hc | hc | hc
    · exact (hM c hc).2
    · decide
    · exact (hP c hc).2
    · revert hc; revert c; decide
    · exact (hV c hc).2)
  unfold header_block
  rw [List.append_assoc, h]
  simp only [List.length_append, crlf, List.length_cons, List.length_nil]

theorem find_delim_ge (d : Str) (m : Nat) (h : find_delim d = some m) : 4 ≤ m := by
  induction d generalizing m with
  | nil => cases h
  | cons c cs ih =>
    rw [find_delim_cons] at h
    split at h
    · cases h; exact Nat.le_refl _
    · cases hf : find_delim cs with
      | none => rw [hf] at h; cases h
      | some m1 =>
        rw [hf] at h
        simp only [Option.map_some', Option.some.injEq] at h
        have := ih m1 hf
        omega

/-- A `getline` on a buffer that holds the delimiter takes a line and leaves
either the whole delimiter ahead, or the blank line CR LF that ends it. -/
theorem read_line_delim (d : Str) (m : Nat) (h : find_delim d = some m) :
    ∃ l rest, read_line d = (l, some rest) ∧ rest = d.drop (l.length + 1) ∧
      ((find_delim rest = some (m - (l.length + 1)) ∧ l.length + 1 + 4 ≤ m) ∨
        (rest = '\r' :: '\n' :: d.drop m ∧ l.length + 3 = m)) := by
  induction d generalizing m with
  | nil => cases h
  | cons c cs ih =>
    rw [find_delim_cons] at h
    split at h
    · rename_i hpre
      cases h
      obtain ⟨t, ht⟩ := List.isPrefixOf_iff_prefix.mp hpre
      simp only [List.cons_append, List.nil_append, List.cons.injEq] at ht
      obtain ⟨rfl, rfl⟩ := ht
      refine ⟨['\r'], '\r' :: '\n' :: t, by simp [read_line], rfl, Or.inr ⟨rfl, rfl⟩⟩
    · cases hf : find_delim cs with
      | none => rw [hf] at h; cases h
      | some m1 =>
        rw [hf] at h
        simp only [Option.map_some', Option.some.injEq] at h
        subst h
        have hge := find_delim_ge cs m1 hf
        by_cases hc : c = '\n'
        · subst hc
          refine ⟨[], cs, by simp [read_line], rfl, Or.inl ⟨?_, ?_⟩⟩
          · rw [hf]; rfl
          · simp only [List.length_nil]; omega
        · obtain ⟨l, rest, hrl, hrest, hcase⟩ := ih m1 hf
          refine ⟨c :: l, rest, by simp [read_line, hc, hrl], ?_, ?_⟩
          · rw [hrest]; rfl
          · rcases hcase with ⟨h1, h2⟩ | ⟨h1, h2⟩
            · left
              refine ⟨?_, ?_⟩
              · rw [h1]
                simp only [List.length_cons]
                congr 1
                omega
              · simp only [List.length_cons]; omega
            · right
              refine ⟨?_, ?_⟩
              · rw [h1]; rfl
              · simp only [List.length_cons]; omega

theorem header_loop_blank (fuel : Nat) (t line : Str) (header : List (Str × Str))
    (h : stream_measure ⟨'\r' :: '\n' :: t, true⟩ line < fuel) :
    header_loop fuel ⟨'\r' :: '\n' :: t, true⟩ line h header = some (header, ⟨t, true⟩) := by
  cases fuel with
  | zero => exact absurd h (Nat.not_lt_zero _)
  | succ fuel =>
    have hg : getline ⟨'\r' :: '\n' :: t, true⟩ line = (⟨t, true⟩, ['\r']) :=
      getline_append ['\r'] t line (by simp)
    rw [header_loop_stop fuel _ line [] h header (by rw [hg]; rfl) header_regex_nil, hg]

/-- The header loop, started on a buffer that holds the delimiter, ends (when
no `pop_back` is undefined) with the stream good and at most the bytes up to
the end of the first delimiter taken. -/
theorem header_loop_within (fuel : Nat) :
    ∀ (d : Str) (m : Nat) (line : Str) (header : List (Str × Str))
      (h : stream_measure ⟨d, true⟩ line < fuel) (res : List (Str × Str)) (is : IStream),
      find_delim d = some m → header_loop fuel ⟨d, true⟩ line h header = some (res, is) →
      is.good = true ∧ ∃ n, n ≤ m ∧ is.data = d.drop n := by
  induction fuel with
  | zero => intro d m line header h; exact absurd h (Nat.not_lt_zero _)
  | succ fuel ih =>
    intro d m line header h res is hd hl
    obtain ⟨l, rest, hrl, hrest, hcase⟩ := read_line_delim d m hd
    have hg : getline ⟨d, true⟩ line = (⟨rest, true⟩, l) := by
      simp [getline, hrl]
    cases hp : pop_back l with
    | none =>
      rw [header_loop_undefined fuel _ line h header (by rw [hg]; exact hp)] at hl
      cases hl
    | some line2 =>
      have hlen : l.length + 1 ≤ m := by
        rcases hcase with ⟨_, h2⟩ | ⟨_, h2⟩ <;> omega
      cases hr : header_regex line2 with
      | none =>
        rw [header_loop_stop fuel _ line line2 h header (by rw [hg]; exact hp) hr, hg] at hl
        cases hl
        exact ⟨rfl, l.length + 1, hlen, hrest⟩
      | some nv =>
        obtain ⟨name, value⟩ := nv
        obtain ⟨h1, hstep⟩ := header_loop_next fuel _ line line2 name value h header
          (by rw [hg]; exact hp) hr
        rw [hstep] at hl
        have h2 := h1
        rw [hg] at h2
        have hl2 : header_loop fuel ⟨rest, true⟩ line2 h2 (umap_assign name value header) =
            some (res, is) := by
          rw [← hl]
          simp only [hg]
        rcases hcase with ⟨hf, _⟩ | ⟨hb, _⟩
        · obtain ⟨hgood, n, hn, hdata⟩ := ih rest _ line2 _ h2 res is hf hl2
          refine ⟨hgood, l.length + 1 + n, by omega, ?_⟩
          rw [hdata, hrest, List.drop_drop]
        · subst hb
          rw [header_loop_blank fuel _ line2 _ h2] at hl2
          cases hl2
          exact ⟨rfl, m, Nat.le_refl _, rfl⟩

theorem parse_request_undefined (is is1 : IStream) (line1 : Str)
    (hg : getline is [] = (is1, line1)) (hp : pop_back line1 = none) :
    parse_request is = none := by
  have h1 : (getline is []).1 = is1 := by rw [hg]
  have h2 : (getline is []).2 = line1 := by rw [hg]
  subst h1
  subst h2
  unfold parse_request
  simp only [hp]

theorem parse_request_of_loop (is is1 : IStream) (line1 line m p v : Str)
    (res : Option (List (Str × Str) × IStream))
    (hg : getline is [] = (is1, line1)) (hp : pop_back line1 = some line)
    (hr : request_line_regex line = some (m, p, v))
    (hl : header_loop (stream_measure is1 line + 1) is1 line (Nat.lt_succ_self _) [] = res) :
    parse_request is = res.map (fun r => (⟨m, p, v, none, r.1, []⟩, r.2)) := by
  have h1 : (getline is []).1 = is1 := by rw [hg]
  have h2 : (getline is []).2 = line1 := by rw [hg]
  subst h1
  subst h2
  unfold parse_request
  simp only [hp, hr, hl]
  cases res with
  | none => rfl
  | some r => rfl

/-- The second half of C10 holds wherever the parse is defined: on a buffer
that holds the delimiter, with `bytes_transferred` the end of its first
occurrence, `parse_request` leaves the stream good and takes no byte past
that point. -/
theorem parse_request_within (read_buffer : Str) (bytes_transferred : Nat) (request : Request)
    (is : IStream) (hd : find_delim read_buffer = some bytes_transferred)
    (hp : parse_request ⟨read_buffer, true⟩ = some (request, is)) :
    is.good = true ∧ ∃ n, n ≤ bytes_transferred ∧ is.data = read_buffer.drop n := by
  obtain ⟨l, rest, hrl, hrest, hcase⟩ := read_line_delim read_buffer bytes_transferred hd
  have hg : getline ⟨read_buffer, true⟩ [] = (⟨rest, true⟩, l) := by
    simp [getline, hrl]
  have hlen : l.length + 1 ≤ bytes_transferred := by
    rcases hcase with ⟨_, h2⟩ | ⟨_, h2⟩ <;> omega
  cases hpop : pop_back l with
  | none =>
    rw [parse_request_undefined _ _ l hg hpop] at hp
    cases hp
  | some line =>
    cases hr : request_line_regex line with
    | none =>
      rw [parse_request_no_match _ _ l line hg hpop hr] at hp
      cases hp
      exact ⟨rfl, l.length + 1, hlen, hrest⟩
    | some mpv =>
      obtain ⟨m, p, v⟩ := mpv
      cases hres : header_loop (stream_measure ⟨rest, true⟩ line + 1) ⟨rest, true⟩ line
          (Nat.lt_succ_self _) [] with
      | none =>
        rw [parse_request_of_loop _ _ l line m p v none hg hpop hr hres] at hp
        cases hp
      | some r =>
        rw [parse_request_of_loop _ _ l line m p v (some r) hg hpop hr hres] at hp
        obtain ⟨res, is2⟩ := r
        simp only [Option.map_some', Option.some.injEq, Prod.mk.injEq] at hp
        obtain ⟨_, rfl⟩ := hp
        rcases hcase with ⟨hf, _⟩ | ⟨hb, _⟩
        · obtain ⟨hgood, n, hn, hdata⟩ := header_loop_within _ rest _ line [] _ res is2 hf hres
          refine ⟨hgood, l.length + 1 + n, by omega, ?_⟩
          rw [hdata, hrest, List.drop_drop]
        · subst hb
          rw [header_loop_blank] at hres
          cases hres
          exact ⟨rfl, bytes_transferred, Nat.le_refl _, rfl⟩

theorem read_until_handler_no_length (rm : Str → Str → Option (List Str)) (s : ServerBase)
    (read_buffer : Str) (bt : Nat) (request : Request) (stream : IStream)
    (hp : parse_request ⟨read_buffer, true⟩ = some (request, stream))
    (hc : umap_find "Content-Length".toList request.header = none) :
    read_until_handler rm s false read_buffer bt = respond rm s.all_resources request := by
  unfold read_until_handler
  simp only [Bool.false_eq_true, if_false, hp, hc]

/-- C7: for a header block made of a request line `M P HTTP/V` (no space and
no line feed in `M`, `P`, `V`), header lines `name:text` (no colon and no
line feed in `name`, no CR or LF in `text`) and the blank line, whatever
follows it in the buffer, `parse_request` returns method `M`, path `P`,
version `V`, no body, and a header map that sends each name, as received, to
the value of its last occurrence (the text after the colon less one leading
space) and has no other key; it stops right after the blank line; and with
no `Content-Length` line the request goes to `respond` without a body. -/
theorem parse_request_well_formed (M P V : Str) (hs : List (Str × Str)) (rest : Str)
    (hM : ∀ c ∈ M, c ≠ ' ' ∧ c ≠ '\n') (hP : ∀ c ∈ P, c ≠ ' ' ∧ c ≠ '\n')
    (hV : ∀ c ∈ V, c ≠ ' ' ∧ c ≠ '\n')
    (hhs : ∀ nt ∈ hs, (∀ c ∈ nt.1, c ≠ ':' ∧ c ≠ '\n') ∧ (∀ c ∈ nt.2, c ≠ '\r' ∧ c ≠ '\n')) :
    ∃ header,
      parse_request ⟨header_block M P V hs ++ rest, true⟩ =
        some (⟨M, P, V, none, header, []⟩, ⟨rest, true⟩) ∧
      (∀ name text pre post, hs = pre ++ (name, text) :: post → (∀ x ∈ post, x.1 ≠ name) →
        umap_find name header = some (header_value text)) ∧
      (∀ name, (∀ x ∈ hs, x.1 ≠ name) → umap_find name header = none) ∧
      ((∀ x ∈ hs, x.1 ≠ "Content-Length".toList) →
        ∀ (rm : Str → Str → Option (List Str)) (s : ServerBase) (bt : Nat),
          read_until_handler rm s false (header_block M P V hs ++ rest) bt =
            respond rm s.all_resources ⟨M, P, V, none, header, []⟩) := by
  have hp := parse_request_block M P V hs rest hM hP hV hhs
  refine ⟨headers_of hs [], hp, ?_, ?_, ?_⟩
  · intro name text pre post hsplit hpost
    rw [hsplit]
    exact headers_of_last name text pre post hpost []
  · intro name hname
    rw [headers_of_absent name hs [] hname]
    rfl
  · intro hname rm s bt
    apply read_until_handler_no_length rm s _ bt _ _ hp
    show umap_find "Content-Length".toList (headers_of hs []) = none
    rw [headers_of_absent _ hs [] hname]
    rfl

/-- C7, at `GET /info HTTP/1.1`, `Host: x`: the block is well formed, the
request parsed has path `/info`, method `GET`, version `1.1`, `Host` = `x`
and no body; on a server with route `^/info/?$` / `GET` the pipeline invokes
that handler with this request, writes its output, and no further completion
is possible on this input, so the handler runs exactly once. -/
theorem parse_request_well_formed_witness :
    ((∀ c ∈ "GET".toList, c ≠ ' ' ∧ c ≠ '\n') ∧ (∀ c ∈ "/info".toList, c ≠ ' ' ∧ c ≠ '\n') ∧
      (∀ c ∈ "1.1".toList, c ≠ ' ' ∧ c ≠ '\n') ∧
      (∀ nt ∈ [("Host".toList, " x".toList)],
        (∀ c ∈ nt.1, c ≠ ':' ∧ c ≠ '\n') ∧ (∀ c ∈ nt.2, c ≠ '\r' ∧ c ≠ '\n'))) ∧
      header_block "GET".toList "/info".toList "1.1".toList [("Host".toList, " x".toList)] =
        "GET /info HTTP/1.1\r\nHost: x\r\n\r\n".toList ∧
      (∃ header,
        parse_request ⟨"GET /info HTTP/1.1\r\nHost: x\r\n\r\n".toList, true⟩ =
          some (⟨"GET".toList, "/info".toList, "1.1".toList, none, header, []⟩, ⟨[], true⟩) ∧
        umap_find "Host".toList header = some "x".toList ∧
        umap_find "Content-Length".toList header = none) ∧
      (∃ c : Connection,
        run regex_lite info_server [31, 0] (accepted "GET /info HTTP/1.1\r\nHost: x\r\n\r\n".toList) =
          some c ∧
        c.calls = [(handler_one, ⟨"GET".toList, "/info".toList, "1.1".toList, none,
          [("Host".toList, "x".toList)], ["/info".toList]⟩)] ∧
        c.outbound = "one".toList ∧ c.fault = none ∧
        ∀ k, complete regex_lite info_server k c = none) :=
  have hyp : (∀ c ∈ "GET".toList, c ≠ ' ' ∧ c ≠ '\n') ∧
      (∀ c ∈ "/info".toList, c ≠ ' ' ∧ c ≠ '\n') ∧
      (∀ c ∈ "1.1".toList, c ≠ ' ' ∧ c ≠ '\n') ∧
      (∀ nt ∈ [("Host".toList, " x".toList)],
        (∀ c ∈ nt.1, c ≠ ':' ∧ c ≠ '\n') ∧ (∀ c ∈ nt.2, c ≠ '\r' ∧ c ≠ '\n')) := by
    refine ⟨by decide, by decide, by decide, ?_⟩
    intro nt hnt
    rw [List.mem_singleton] at hnt
    subst hnt
    decide
  ⟨hyp, by decide,
    (parse_request_well_formed "GET".toList "/info".toList "1.1".toList
      [("Host".toList, " x".toList)] [] hyp.1 hyp.2.1 hyp.2.2.1 hyp.2.2.2).elim
      (fun header h => ⟨header, h.1,
        h.2.1 "Host".toList " x".toList [] [] rfl (by simp),
        h.2.2.1 "Content-Length".toList (by decide)⟩),
    ⟨⟨[], "one".toList, [Op.async_read_until],
        [(handler_one, ⟨"GET".toList, "/info".toList, "1.1".toList, none,
          [("Host".toList, "x".toList)], ["/info".toList]⟩)], none⟩,
      by rfl, rfl, rfl, rfl, fun k => by simp [complete, find_delim]⟩⟩

/-- C8: when the first line of the buffer, less its last character, does not
match the request-line expression, `parse_request` signals nothing: it
returns the default `Request` (empty method, path and version, empty header
map, no body), having read the first line only, and the completion handler
goes on to `respond` with that request. -/
theorem parse_request_bad_line (line rest : Str) (hne : line ≠ [])
    (hnl : ∀ c ∈ line, c ≠ '\n') (hr : request_line_regex line.dropLast = none) :
    parse_request ⟨line ++ '\n' :: rest, true⟩ = some (Request.empty, ⟨rest, true⟩) ∧
      Request.empty = ⟨[], [], [], none, [], []⟩ ∧
      ∀ (rm : Str → Str → Option (List Str)) (s : ServerBase) (bt : Nat),
        read_until_handler rm s false (line ++ '\n' :: rest) bt =
          respond rm s.all_resources Request.empty := by
  have hp : parse_request ⟨line ++ '\n' :: rest, true⟩ = some (Request.empty, ⟨rest, true⟩) :=
    parse_request_no_match _ _ line line.dropLast (getline_append line rest [] hnl)
      (by simp [pop_back, hne]) hr
  exact ⟨hp, rfl, fun rm s bt => read_until_handler_no_length rm s _ bt _ _ hp rfl⟩

/-- C8, at the first line `hello` CR. -/
theorem parse_request_bad_line_witness :
    parse_request ⟨"hello\r\n\r\n".toList, true⟩ = some (Request.empty, ⟨"\r\n".toList, true⟩) ∧
      ∀ (rm : Str → Str → Option (List Str)) (s : ServerBase) (bt : Nat),
        read_until_handler rm s false "hello\r\n\r\n".toList bt =
          respond rm s.all_resources Request.empty :=
  have h := parse_request_bad_line "hello\r".toList "\r\n".toList (by decide) (by decide)
    (by decide)
  ⟨h.1, h.2.2⟩

/-- C10 fails on the code: the buffer LF CR LF CR LF holds the delimiter, so
`async_read_until` can deliver it, and its first line is empty, so the first
`pop_back` of `parse_request` is on an empty string; the same happens in the
header loop for an empty line after a valid request line. -/
theorem pop_back_on_empty_line :
    find_delim "\n\r\n\r\n".toList = some 5 ∧
      (getline ⟨"\n\r\n\r\n".toList, true⟩ []).2 = [] ∧
      parse_request ⟨"\n\r\n\r\n".toList, true⟩ = none ∧
      (∀ (rm : Str → Str → Option (List Str)) (s : ServerBase),
        (read_until_handler rm s false "\n\r\n\r\n".toList 5).fault =
          some Fault.undefined_behaviour) ∧
      find_delim "GET / HTTP/1.1\r\n\n\r\n\r\n".toList = some 21 ∧
      parse_request ⟨"GET / HTTP/1.1\r\n\n\r\n\r\n".toList, true⟩ = none := by
  refine ⟨by decide, by decide, by decide, fun _ _ => rfl, by decide, by decide⟩

theorem stoull_lt (v : Str) (n : Nat) (h : stoull v = Except.ok n) : n < 2 ^ 64 := by
  unfold stoull at h
  simp only at h
  split at h
  · cases h
  · split at h
    · cases h
    · rename_i hlt
      cases h
      split
      · exact Nat.mod_lt _ (by norm_num)
      · omega

theorem size_sub_eq (a b : Nat) (hb : b ≤ a) (ha : a - b < 2 ^ 64) : size_sub a b = a - b := by
  unfold size_sub
  have h1 : b % 2 ^ 64 ≤ b := Nat.mod_le _ _
  have h2 : b % 2 ^ 64 < 2 ^ 64 := Nat.mod_lt _ (by norm_num)
  have h3 := Nat.div_add_mod b (2 ^ 64)
  have h4 : a + (2 ^ 64 - b % 2 ^ 64) = (a - b) + 2 ^ 64 * (b / 2 ^ 64 + 1) := by
    rw [Nat.mul_add, Nat.mul_one]
    omega
  rw [h4, Nat.add_mul_mod_self_left, Nat.mod_eq_of_lt ha]

/-- C3: for a well-formed header block whose last `Content-Length` line has a
value that `stoull` reads as the length `n` of `body`, and for every split of
the body with `b ≤ n` bytes already in the buffer after the blank line when
`async_read_until` completes, that completion issues `async_read` for exactly
`n - b` bytes on a buffer holding those `b` bytes and nothing else; the
completion of that read calls `respond` with the request whose body stream
yields exactly `body`, leaving what follows the body on the connection; and
when the request resolves to a route, the handler invoked is passed that
request (method, path, version and headers as parsed, body exactly `body`)
and its output is what is written. -/
theorem body_read_exact (rm : Str → Str → Option (List Str)) (s : ServerBase)
    (M P V : Str) (hs pre post : List (Str × Str)) (text body tail outbound : Str) (b : Nat)
    (calls : List (Handler × Request)) (fault : Option Fault)
    (hM : ∀ c ∈ M, c ≠ ' ' ∧ c ≠ '\n') (hP : ∀ c ∈ P, c ≠ ' ' ∧ c ≠ '\n')
    (hV : ∀ c ∈ V, c ≠ ' ' ∧ c ≠ '\n')
    (hhs : ∀ nt ∈ hs, (∀ c ∈ nt.1, c ≠ ':' ∧ c ≠ '\n') ∧ (∀ c ∈ nt.2, c ≠ '\r' ∧ c ≠ '\n'))
    (hsplit : hs = pre ++ ("Content-Length".toList, text) :: post)
    (hpost : ∀ x ∈ post, x.1 ≠ "Content-Length".toList)
    (hv : stoull (header_value text) = Except.ok body.length) (hb : b ≤ body.length) :
    ∃ header,
      parse_request ⟨header_block M P V hs ++ body.take b, true⟩ =
        some (⟨M, P, V, none, header, []⟩, ⟨body.take b, true⟩) ∧
      complete rm s ((header_block M P V hs).length + b)
          ⟨header_block M P V hs ++ (body ++ tail), outbound, [Op.async_read_until], calls, fault⟩ =
        some ⟨body.drop b ++ tail, outbound,
          [Op.async_read (body.take b) (body.length - b) ⟨M, P, V, none, header, []⟩],
          calls, fault⟩ ∧
      (∀ k, complete rm s k ⟨body.drop b ++ tail, outbound,
          [Op.async_read (body.take b) (body.length - b) ⟨M, P, V, none, header, []⟩],
          calls, fault⟩ =
        some (Connection.apply ⟨tail, outbound, [], calls, fault⟩
          (respond rm s.all_resources ⟨M, P, V, some body, header, []⟩))) ∧
      ((∃ res ∈ s.all_resources, qualifies rm ⟨M, P, V, some body, header, []⟩ res) →
        ∃ h sm, ∀ k, complete rm s k ⟨body.drop b ++ tail, outbound,
            [Op.async_read (body.take b) (body.length - b) ⟨M, P, V, none, header, []⟩],
            calls, fault⟩ =
          some ⟨tail, outbound,
            [Op.async_write (h ⟨M, P, V, some body, header, sm⟩)
              ⟨M, P, V, some body, header, sm⟩],
            calls ++ [(h, ⟨M, P, V, some body, header, sm⟩)], fault⟩) := by
  have hp := parse_request_block M P V hs (body.take b) hM hP hV hhs
  have hd := find_delim_block M P V hs (body.take b) hM hP hV hhs
  have hcl : umap_find "Content-Length".toList (headers_of hs []) = some (header_value text) := by
    rw [hsplit]
    exact headers_of_last _ text pre post hpost []
  have hn := stoull_lt _ _ hv
  have htake : (header_block M P V hs ++ (body ++ tail)).take ((header_block M P V hs).length + b)
      = header_block M P V hs ++ body.take b := by
    rw [List.take_append, List.take_append_of_le_length hb]
  have hdrop : (header_block M P V hs ++ (body ++ tail)).drop ((header_block M P V hs).length + b)
      = body.drop b ++ tail := by
    rw [List.drop_append, List.drop_append_of_le_length hb]
  have hlenb : (body.take b).length = b := by
    rw [List.length_take]
    omega
  have hsz1 : size_sub (header_block M P V hs ++ body.take b).length
      (header_block M P V hs).length = b := by
    rw [size_sub_eq _ _ (by rw [List.length_append]; omega)
      (by rw [List.length_append, hlenb]; omega), List.length_append, hlenb]
    omega
  have hsz2 : size_sub body.length b = body.length - b :=
    size_sub_eq _ _ hb (by omega)
  have hread : ∀ k, complete rm s k ⟨body.drop b ++ tail, outbound,
      [Op.async_read (body.take b) (body.length - b) ⟨M, P, V, none, headers_of hs [], []⟩],
      calls, fault⟩ =
      some (Connection.apply ⟨tail, outbound, [], calls, fault⟩
        (respond rm s.all_resources ⟨M, P, V, some body, headers_of hs [], []⟩)) := by
    intro k
    have hle : body.length - b ≤ (body.drop b ++ tail).length := by
      rw [List.length_append, List.length_drop]
      omega
    have hbody : body.take b ++ (body.drop b ++ tail).take (body.length - b) = body := by
      have : (body.drop b ++ tail).take (body.length - b) = body.drop b := by
        rw [List.take_append_of_le_length (by rw [List.length_drop])]
        apply List.take_of_length_le
        rw [List.length_drop]
      rw [this, List.take_append_drop]
    have hdrop2 : (body.drop b ++ tail).drop (body.length - b) = tail := by
      have : body.length - b = (body.drop b).length := by rw [List.length_drop]
      rw [this, List.drop_left]
    simp only [complete, hle, if_true, hbody, hdrop2, read_handler, Bool.false_eq_true, if_false]
  refine ⟨headers_of hs [], hp, ?_, hread, ?_⟩
  · simp only [complete, htake, hdrop, hd, read_until_handler, Bool.false_eq_true, if_false,
      hp, hcl, hv, hsz1, hsz2, Connection.apply]
    simp
  · rintro ⟨x, hx, hqx⟩
    rcases first_qualifying rm ⟨M, P, V, some body, headers_of hs [], []⟩ s.all_resources with
      hnone | ⟨pre1, res, post1, hl, hpre1, hres⟩
    · exact absurd hqx (hnone x hx)
    · obtain ⟨sm, h, _, _, hr⟩ := respond_split rm _ pre1 post1 res hpre1 hres
      refine ⟨h, sm, fun k => ?_⟩
      rw [hread k, hl, hr]
      simp [Connection.apply, hit]

/-- C3, at `Content-Length: 5` and body `hello`, two bytes of which arrive
with the header block, on a server whose `POST` route echoes the body: the
first completion issues a read of three bytes on a buffer holding `he`; the
completion of that read invokes a handler with a request whose body is
`hello`; and run as a whole, the handler invoked is the echo handler, it is
passed `hello`, and `hello` is what it writes back. -/
theorem body_read_exact_witness :
    stoull (header_value " 5".toList) = Except.ok "hello".toList.length ∧
      complete regex_lite echo_server 44
          ⟨"POST /info HTTP/1.1\r\nContent-Length: 5\r\n\r\nhelloGET".toList, [],
            [Op.async_read_until], [], none⟩ =
        some ⟨"lloGET".toList, [],
          [Op.async_read "he".toList 3
            ⟨"POST".toList, "/info".toList, "1.1".toList, none,
              [("Content-Length".toList, "5".toList)], []⟩], [], none⟩ ∧
      (∃ h sm, ∀ k, complete regex_lite echo_server k ⟨"lloGET".toList, [],
          [Op.async_read "he".toList 3
            ⟨"POST".toList, "/info".toList, "1.1".toList, none,
              [("Content-Length".toList, "5".toList)], []⟩], [], none⟩ =
        some ⟨"GET".toList, [],
          [Op.async_write
            (h ⟨"POST".toList, "/info".toList, "1.1".toList, some "hello".toList,
              [("Content-Length".toList, "5".toList)], sm⟩)
            ⟨"POST".toList, "/info".toList, "1.1".toList, some "hello".toList,
              [("Content-Length".toList, "5".toList)], sm⟩],
          [] ++ [(h, ⟨"POST".toList, "/info".toList, "1.1".toList, some "hello".toList,
            [("Content-Length".toList, "5".toList)], sm⟩)], none⟩) ∧
      run regex_lite echo_server [44, 0]
          ⟨"POST /info HTTP/1.1\r\nContent-Length: 5\r\n\r\nhelloGET".toList, [],
            [Op.async_read_until], [], none⟩ =
        some ⟨"GET".toList, [],
          [Op.async_write "hello".toList ⟨"POST".toList, "/info".toList, "1.1".toList,
            some "hello".toList, [("Content-Length".toList, "5".toList)], ["/info".toList]⟩],
          [(handler_echo, ⟨"POST".toList, "/info".toList, "1.1".toList,
            some "hello".toList, [("Content-Length".toList, "5".toList)], ["/info".toList]⟩)],
          none⟩ := by
  obtain ⟨header, hparse, hfirst, _, hinvoke⟩ :=
    body_read_exact regex_lite echo_server "POST".toList "/info".toList "1.1".toList
      [("Content-Length".toList, " 5".toList)] [] [] " 5".toList "hello".toList "GET".toList []
      2 [] none (by decide) (by decide) (by decide)
      (by intro nt hnt; rw [List.mem_singleton] at hnt; subst hnt; decide)
      rfl (by simp) (by decide) (by decide)
  have hconc : parse_request
      ⟨"POST /info HTTP/1.1\r\nContent-Length: 5\r\n\r\nhe".toList, true⟩ =
      some (⟨"POST".toList, "/info".toList, "1.1".toList, none,
        [("Content-Length".toList, "5".toList)], []⟩, ⟨"he".toList, true⟩) := by decide
  have hhead : header = [("Content-Length".toList, "5".toList)] := by
    have h := hparse.symm.trans hconc
    simp only [Option.some.injEq, Prod.mk.injEq, Request.mk.injEq] at h
    exact h.1.2.2.2.2.1
  subst hhead
  exact ⟨by decide, hfirst, hinvoke ⟨_, List.Mem.head _, by decide⟩, by rfl⟩

/-- C4 fails on the code: the request-line expression admits the empty
version (`GET /info HTTP/`), the request is routed and answered, and in the
write completion `stof` throws `std::invalid_argument` on the empty string:
the handler neither issues a header read nor returns, the exception leaves
it. For the versions `1.1` and `1.0` the completion does what the claim says:
a header read for the first, nothing for the second. -/
theorem write_completion_stof_throws :
    request_line_regex "GET /info HTTP/".toList = some ("GET".toList, "/info".toList, []) ∧
      stof [] = Except.error Fault.invalid_argument ∧
      (write_handler false ⟨"GET".toList, "/info".toList, [], none, [], ["/info".toList]⟩).issued
        = [] ∧
      (write_handler false ⟨"GET".toList, "/info".toList, [], none, [], ["/info".toList]⟩).fault
        = some Fault.invalid_argument ∧
      (∃ c : Connection,
        run regex_lite info_server [19, 0] (accepted "GET /info HTTP/\r\n\r\n".toList) = some c ∧
        c.calls = [(handler_one, ⟨"GET".toList, "/info".toList, [], none, [],
          ["/info".toList]⟩)] ∧
        c.outbound = "one".toList ∧ c.pending = [] ∧ c.fault = some Fault.invalid_argument) ∧
      (write_handler false ⟨"GET".toList, "/info".toList, "1.1".toList, none, [],
        ["/info".toList]⟩).issued = [Op.async_read_until] ∧
      (write_handler false ⟨"GET".toList, "/info".toList, "1.0".toList, none, [],
        ["/info".toList]⟩).issued = [] ∧
      (write_handler false ⟨"GET".toList, "/info".toList, "1.0".toList, none, [],
        ["/info".toList]⟩).fault = none := by
  refine ⟨by decide, by decide, by decide, by decide, ?_, by decide, by decide, by decide⟩
  exact ⟨⟨[], "one".toList, [], [(handler_one, ⟨"GET".toList, "/info".toList, [], none, [],
    ["/info".toList]⟩)], some Fault.invalid_argument⟩, by rfl, rfl, rfl, rfl, rfl⟩

/-- C5 fails on the code: two HTTP/1.1 requests arrive back to back and the
first `async_read_until` buffers all 45 bytes. The first handler runs and its
response is written; the write completion calls
`process_request_and_respond`, which reads into a fresh buffer, so the 23
bytes of the second request, left in the old buffer, are gone: the new read
can never complete and the second handler never runs. When the first read
stops at the first blank line (22 bytes), both handlers run in order. -/
theorem pipelined_request_lost :
    (∃ c : Connection,
        run regex_lite info_server [45, 0]
          (accepted "GET /info HTTP/1.1\r\n\r\nGET /other HTTP/1.1\r\n\r\n".toList) = some c ∧
        c.calls = [(handler_one, ⟨"GET".toList, "/info".toList, "1.1".toList, none, [],
          ["/info".toList]⟩)] ∧
        c.outbound = "one".toList ∧ c.inbound = [] ∧ c.pending = [Op.async_read_until] ∧
        (∀ k, complete regex_lite info_server k c = none)) ∧
      (∃ c : Connection,
        run regex_lite info_server [22, 0, 23, 0]
          (accepted "GET /info HTTP/1.1\r\n\r\nGET /other HTTP/1.1\r\n\r\n".toList) = some c ∧
        c.calls = [(handler_one, ⟨"GET".toList, "/info".toList, "1.1".toList, none, [],
            ["/info".toList]⟩),
          (handler_two, ⟨"GET".toList, "/other".toList, "1.1".toList, none, [],
            ["/other".toList]⟩)] ∧
        c.outbound = "onetwo".toList) := by
  constructor
  · exact ⟨⟨[], "one".toList, [Op.async_read_until],
      [(handler_one, ⟨"GET".toList, "/info".toList, "1.1".toList, none, [],
        ["/info".toList]⟩)], none⟩, by rfl, rfl, rfl, rfl, rfl,
      fun k => by simp [complete, find_delim]⟩
  · exact ⟨⟨[], "onetwo".toList, [Op.async_read_until],
      [(handler_one, ⟨"GET".toList, "/info".toList, "1.1".toList, none, [],
          ["/info".toList]⟩),
        (handler_two, ⟨"GET".toList, "/other".toList, "1.1".toList, none, [],
          ["/other".toList]⟩)], none⟩, by rfl, rfl, rfl⟩

theorem respond_issued (rm : Str → Str → Option (List Str)) (l : List (Str × method_map))
    (request : Request) :
    (respond rm l request).issued = [] ∨
      ∃ wb rq, (respond rm l request).issued = [Op.async_write wb rq] := by
  rcases first_qualifying rm request l with hn | ⟨pre, res, post, hl, hpre, hres⟩
  · left
    rw [respond_none rm request l hn]
    rfl
  · right
    obtain ⟨sm, h, _, _, hr⟩ := respond_split rm request pre post res hpre hres
    rw [hl, hr]
    exact ⟨_, _, rfl⟩

theorem read_until_handler_issued (rm : Str → Str → Option (List Str)) (s : ServerBase)
    (ec : Bool) (read_buffer : Str) (bt : Nat) :
    (read_until_handler rm s ec read_buffer bt).issued.length ≤ 1 ∧
      Op.async_read_until ∉ (read_until_handler rm s ec read_buffer bt).issued := by
  unfold read_until_handler
  split
  · simp [Effect.nothing]
  · split
    · simp
    · split
      · split
        · simp
        · simp
      · rcases respond_issued rm s.all_resources (by assumption) with h | ⟨wb, rq, h⟩
        · rw [h]; simp
        · rw [h]; simp

theorem read_handler_issued (rm : Str → Str → Option (List Str)) (s : ServerBase)
    (ec : Bool) (read_buffer : Str) (request : Request) :
    (read_handler rm s ec read_buffer request).issued.length ≤ 1 ∧
      Op.async_read_until ∉ (read_handler rm s ec read_buffer request).issued := by
  unfold read_handler
  split
  · simp [Effect.nothing]
  · rcases respond_issued rm s.all_resources { request with content := some read_buffer }
      with h | ⟨wb, rq, h⟩
    · rw [h]; simp
    · rw [h]; simp

theorem write_handler_issued (ec : Bool) (request : Request) :
    (write_handler ec request).issued.length ≤ 1 := by
  unfold write_handler
  split
  · simp [Effect.nothing]
  · split
    · split <;> simp [Effect.nothing, process_request_and_respond]
    · simp

/-- C9: in the step relation over completions of one connection, every
reachable state has at most one outstanding operation; each completion
handler issues at most one operation; and `async_read_until` is issued by
neither read completion, so after the accept a header read is issued only by
the completion of a write. -/
theorem one_outstanding_operation (rm : Str → Str → Option (List Str)) (s : ServerBase) :
    (∀ c, Reachable rm s c → c.pending.length ≤ 1) ∧
      (∀ ec read_buffer bt,
        (read_until_handler rm s ec read_buffer bt).issued.length ≤ 1 ∧
          Op.async_read_until ∉ (read_until_handler rm s ec read_buffer bt).issued) ∧
      (∀ ec read_buffer request,
        (read_handler rm s ec read_buffer request).issued.length ≤ 1 ∧
          Op.async_read_until ∉ (read_handler rm s ec read_buffer request).issued) ∧
      (∀ ec request, (write_handler ec request).issued.length ≤ 1) := by
  refine ⟨?_, read_until_handler_issued rm s, read_handler_issued rm s, write_handler_issued⟩
  intro c hc
  induction hc with
  | accept inbound => simp [accepted, process_request_and_respond]
  | complete k c c1 _ hstep ih =>
    unfold complete at hstep
    split at hstep
    · cases hstep
    · rename_i ops hpend
      rw [hpend] at ih
      have hops : ops = [] := List.length_eq_zero.mp (by simpa using ih)
      split at hstep
      · cases hstep
        simp [Connection.apply, hops, (read_until_handler_issued rm s false _ _).1]
      · cases hstep
    · rename_i rb n rq ops hpend
      rw [hpend] at ih
      have hops : ops = [] := List.length_eq_zero.mp (by simpa using ih)
      split at hstep
      · cases hstep
        simp [Connection.apply, hops, (read_handler_issued rm s false _ _).1]
      · cases hstep
    · rename_i wb rq ops hpend
      rw [hpend] at ih
      have hops : ops = [] := List.length_eq_zero.mp (by simpa using ih)
      cases hstep
      simp [Connection.apply, hops, write_handler_issued false _]
  | complete_error c c1 _ hstep ih =>
    unfold complete_error at hstep
    split at hstep
    · cases hstep
    · rename_i ops hpend
      rw [hpend] at ih
      have hops : ops = [] := List.length_eq_zero.mp (by simpa using ih)
      cases hstep
      simp [Connection.apply, hops, (read_until_handler_issued rm s true _ _).1]
    · rename_i rb n rq ops hpend
      rw [hpend] at ih
      have hops : ops = [] := List.length_eq_zero.mp (by simpa using ih)
      cases hstep
      simp [Connection.apply, hops, (read_handler_issued rm s true _ _).1]
    · rename_i wb rq ops hpend
      rw [hpend] at ih
      have hops : ops = [] := List.length_eq_zero.mp (by simpa using ih)
      cases hstep
      simp [Connection.apply, hops, write_handler_issued true _]

/-- C9, at the state reached when the header read of `GET /info` completes:
the one outstanding operation is the write of the response. -/
theorem one_outstanding_operation_witness :
    Reachable regex_lite info_server
        ⟨[], [], [Op.async_write "one".toList ⟨"GET".toList, "/info".toList, "1.1".toList, none,
          [], ["/info".toList]⟩], [(handler_one, ⟨"GET".toList, "/info".toList, "1.1".toList,
          none, [], ["/info".toList]⟩)], none⟩ ∧
      [Op.async_write "one".toList ⟨"GET".toList, "/info".toList, "1.1".toList, none,
        [], ["/info".toList]⟩].length ≤ 1 :=
  have hr : Reachable regex_lite info_server
      ⟨[], [], [Op.async_write "one".toList ⟨"GET".toList, "/info".toList, "1.1".toList, none,
        [], ["/info".toList]⟩], [(handler_one, ⟨"GET".toList, "/info".toList, "1.1".toList,
        none, [], ["/info".toList]⟩)], none⟩ :=
    Reachable.complete 22 (accepted "GET /info HTTP/1.1\r\n\r\n".toList) _
      (Reachable.accept _) (by rfl)
  ⟨hr, (one_outstanding_operation regex_lite info_server).1 _ hr⟩

end EasyWeb
